import Mathlib

/-!
Verification development for the background job execution manager of
jroell/auto-wiki (src/api/job_manager.py together with src/api/redis_store.py).

The embedding is shallow:

* `Job` mirrors the Python class `Job` (job_manager.py lines 26-49); Python's
  `time.time()` floats are modelled as rationals, and the opaque
  `metadata: Dict[str, Any]` as a string-keyed association list (its value
  type is never inspected by any operation of this core).
* `JobManager` mirrors the class `JobManager`: the insertion-ordered Python
  dict `self.jobs` becomes an association list with in-place replacement,
  and `self._persist` is instrumented to keep the history of snapshots it
  wrote (`persistLog`, most recent first) so that theorems can speak about
  what was persisted and when.
* Python exceptions are modelled with `Except`/`Option`: a task that raises
  an exception with message `m` is a task whose result is `Except.error m`,
  and the try/except blocks of the source become `match` on those values.
* Calls that read the wall clock receive the reading (`now : ℚ`) as an
  explicit argument; `uuid.uuid4()` likewise becomes an explicit `freshId`
  argument.
* The interleaved execution of worker threads, the table mutex `self.lock`
  and the per-key repo locks are modelled separately by a small transition
  system (`Conf`/`Step`) whose atomic steps follow the nested closure
  `_run` of `create_job` statement by statement.
-/

namespace AutoWiki

/-- Lookup in a Python-style dict modelled as an association list
(first binding for a key wins; dicts never hold duplicate keys). -/
def lookupD {α : Type} : List (String × α) → String → Option α
  | [], _ => none
  | (k, v) :: rest, key => if k = key then some v else lookupD rest key

/-- Assignment `d[key] = v` on a Python dict: replace in place when the key is
present (keeping its position in insertion order), append otherwise. -/
def insertD {α : Type} : List (String × α) → String → α → List (String × α)
  | [], key, v => [(key, v)]
  | (k, w) :: rest, key, v =>
      if k = key then (key, v) :: rest else (k, w) :: insertD rest key v

/-- Metadata is a caller-supplied opaque string-keyed mapping
(`Dict[str, Any]`); no operation of this core inspects its values, so the
value type is fixed to `String` in the model. -/
abbrev Metadata := List (String × String)

namespace JobStatus

/-- job_manager.py line 20. -/
def QUEUED : String := "queued"

/-- job_manager.py line 21. -/
def RUNNING : String := "running"

/-- job_manager.py line 22. -/
def SUCCESS : String := "success"

/-- job_manager.py line 23. -/
def FAILED : String := "failed"

end JobStatus

/-- The `Job` object, attribute for attribute (job_manager.py lines 26-36).
`status` is a plain string in the source and stays one here. -/
structure Job where
  id : String
  repo_url : String
  repo_type : String
  status : String
  error : Option String
  progress : Option String
  created_at : ℚ
  updated_at : ℚ
  metadata : Metadata
deriving DecidableEq, Repr

/-- `Job.__init__` (lines 27-36): `freshId` stands for `str(uuid.uuid4())`
and `now` for the `time.time()` reading; `updated_at` starts equal to
`created_at`. -/
def Job.init (repo_url repo_type : String) (metadata : Metadata)
    (freshId : String) (now : ℚ) : Job :=
  { id := freshId
    repo_url := repo_url
    repo_type := repo_type
    status := JobStatus.QUEUED
    error := none
    progress := none
    created_at := now
    updated_at := now
    metadata := metadata }

/-- The JSON snapshot record emitted by `Job.to_dict` (lines 38-49) and
stored by the persistence backends; every one of the nine keys is always
present in a snapshot written by `_persist`. -/
structure JobDict where
  id : String
  repo_url : String
  repo_type : String
  status : String
  error : Option String
  progress : Option String
  created_at : ℚ
  updated_at : ℚ
  metadata : Metadata
deriving DecidableEq, Repr

/-- `Job.to_dict` (lines 38-49): a field-for-field dump. -/
def Job.to_dict (j : Job) : JobDict :=
  { id := j.id
    repo_url := j.repo_url
    repo_type := j.repo_type
    status := j.status
    error := j.error
    progress := j.progress
    created_at := j.created_at
    updated_at := j.updated_at
    metadata := j.metadata }

/-- One keyword argument of `_update`/`update_job`. `setattr(job, k, v)` is
performed for exactly the attribute names created in `Job.__init__`
(`hasattr` is true only for those); any other name is skipped, which the
`other` constructor records. Values are modelled at the runtime type the
attribute holds. -/
inductive FieldUpdate where
  | id (v : String)
  | repo_url (v : String)
  | repo_type (v : String)
  | status (v : String)
  | error (v : Option String)
  | progress (v : Option String)
  | created_at (v : ℚ)
  | updated_at (v : ℚ)
  | metadata (v : Metadata)
  | other (name : String)
deriving DecidableEq, Repr

/-- The body of the `setattr` loop of `_update` (lines 128-130) for one
keyword argument. -/
def setField (j : Job) : FieldUpdate → Job
  | .id v => { j with id := v }
  | .repo_url v => { j with repo_url := v }
  | .repo_type v => { j with repo_type := v }
  | .status v => { j with status := v }
  | .error v => { j with error := v }
  | .progress v => { j with progress := v }
  | .created_at v => { j with created_at := v }
  | .updated_at v => { j with updated_at := v }
  | .metadata v => { j with metadata := v }
  | .other _ => j

/-- The `for k, v in kwargs.items()` loop of `_update` (lines 128-130). -/
def applyUpdates (j : Job) (kw : List FieldUpdate) : Job :=
  kw.foldl setField j

/-- State of a `JobManager` instance.  `jobs` is the insertion-ordered dict
`self.jobs`; `repo_locks` maps a repo url to the identity of its
`threading.Lock` object, allocated from the counter `next_lock`
(distinct objects get distinct identities); `redis_store` holds the url when
a `RedisStore` was successfully constructed; `persistLog` records, most
recent first, every snapshot `_persist` wrote to the active backend. -/
structure JobManager where
  jobs : List (String × Job)
  repo_locks : List (String × Nat)
  next_lock : Nat
  redis_store : Option String
  persistLog : List (List JobDict)
deriving DecidableEq, Repr

namespace JobManager

/-- `_persist` (lines 87-96): dump every job in table order and write the
payload to the active backend (redis when configured, the local file
otherwise); the write is recorded on `persistLog`.  Write failures are
swallowed by the source (`except Exception: pass`) and do not change
manager state. -/
def persist (s : JobManager) : JobManager :=
  { s with persistLog := (s.jobs.map fun p => p.2.to_dict) :: s.persistLog }

/-- `_get_repo_lock` (lines 98-102): under `self.lock` — the table mutex —
lazily allocate the lock for `repo_url` and return (the identity of) the
cached lock.  The concurrency model below replays this step by step; this
sequential version returns the updated state and the lock identity. -/
def get_repo_lock (s : JobManager) (repo_url : String) : JobManager × Nat :=
  match lookupD s.repo_locks repo_url with
  | some l => (s, l)
  | none =>
      ({ s with repo_locks := insertD s.repo_locks repo_url s.next_lock
                next_lock := s.next_lock + 1 }, s.next_lock)

/-- `create_job` (lines 104-121), state effects of the submitting thread:
construct the `Job`, insert it into the table and persist, all under
`self.lock`, then return the job.  The `_run` closure handed to
`self.executor.submit` is modelled by `runWorker` below and by the
transition system. -/
def create_job (s : JobManager) (repo_url repo_type : String)
    (metadata : Metadata) (freshId : String) (now : ℚ) : JobManager × Job :=
  let job := Job.init repo_url repo_type metadata freshId now
  (persist { s with jobs := insertD s.jobs job.id job }, job)

/-- `_update` (lines 123-132): under `self.lock`, look the job up; an unknown
id returns before touching anything; otherwise apply the `setattr` loop,
refresh `updated_at` from the clock and persist. -/
def update (s : JobManager) (job_id : String) (kw : List FieldUpdate)
    (now : ℚ) : JobManager :=
  match lookupD s.jobs job_id with
  | none => s
  | some job =>
      let job1 := { applyUpdates job kw with updated_at := now }
      persist { s with jobs := insertD s.jobs job_id job1 }

/-- `update_job` (lines 134-135): public alias of `_update`. -/
def update_job (s : JobManager) (job_id : String) (kw : List FieldUpdate)
    (now : ℚ) : JobManager :=
  update s job_id kw now

/-- `list_jobs` (lines 137-139). -/
def list_jobs (s : JobManager) : List JobDict :=
  s.jobs.map fun p => p.2.to_dict

/-- `get_job` (lines 141-144). -/
def get_job (s : JobManager) (job_id : String) : Option JobDict :=
  (lookupD s.jobs job_id).map Job.to_dict

end JobManager

/-- The keyword arguments of the first `_update` call of `_run`
(line 113): `status=RUNNING, progress="starting"`. -/
def startUpdates : List FieldUpdate :=
  [.status JobStatus.RUNNING, .progress (some "starting")]

/-- The keyword arguments of the terminal `_update` call of `_run`
(lines 116 and 118), by task outcome: on normal return
`status=SUCCESS, progress="done"`; on an exception `e`,
`status=FAILED, error=str(e), progress="error"`. -/
def finishUpdates : Except String Unit → List FieldUpdate
  | .ok _ => [.status JobStatus.SUCCESS, .progress (some "done")]
  | .error e => [.status JobStatus.FAILED, .error (some e), .progress (some "error")]

/-- The `_run` closure of `create_job` (lines 110-118) as executed by a
worker, with the task's own effects abstracted to its outcome `res`
(a task raising an exception with message `m` has `res = Except.error m`).
`t1`, `t2` are the clock readings of the two `_update` calls.  The
repo-lock acquisition around this body is replayed by the transition
system below; it does not touch the job table. -/
def JobManager.runWorker (s : JobManager) (jobId : String)
    (res : Except String Unit) (t1 t2 : ℚ) : JobManager :=
  let s1 := s.update jobId startUpdates t1
  s1.update jobId (finishUpdates res) t2

/-- `RedisStore.load` (redis_store.py lines 13-20): `raw` is the outcome of
`self.client.get(self.key)` — `Except.error` when the cache is unreachable
(the internal try/except coerces it to `[]`), `Except.ok none` when the key
is absent (`if not raw: return []`), `Except.ok (some d)` for a stored
payload. -/
def RedisStore.load (raw : Except Unit (Option (List JobDict))) : List JobDict :=
  match raw with
  | .error _ => []
  | .ok none => []
  | .ok (some d) => d

/-- The reconstruction loop body of `_load_store` (lines 74-82): build a
`Job` from one stored snapshot.  Every snapshot written by `_persist`
carries all nine keys, so the `item.get(..., default)` fallbacks of the
source never fire on such input. -/
def jobOfItem (item : JobDict) : Job :=
  { id := item.id
    repo_url := item.repo_url
    repo_type := item.repo_type
    status := item.status
    error := item.error
    progress := item.progress
    created_at := item.created_at
    updated_at := item.updated_at
    metadata := item.metadata }

/-- The `for item in data: ... self.jobs[job.id] = job` loop of
`_load_store` (lines 74-82): records are keyed by their stored id. -/
def loadFromData (data : List JobDict) : List (String × Job) :=
  data.foldl (fun acc item => insertD acc (jobOfItem item).id (jobOfItem item)) []

/-- `JobManager.__init__` together with `_load_store`
(lines 53-85).  `redisCtorOk` is false when `RedisStore(redis_url)` raises
(unreachable backend, missing redis module): the `try/except` of lines
60-63 then leaves `self.redis_store = None`.  `redisRaw` is the raw cache
read consumed by `RedisStore.load` when a store was constructed.
`localFile` models the local file: `none` when `JOB_STORE_PATH` does not
exist (`data = []`), `some (Except.error ())` when reading/parsing it
raises (caught at lines 83-85, leaving the table empty), `some (Except.ok
data)` for a parsed payload.  The constructor never propagates an
exception: every failure path lands in one of these cases. -/
def JobManager.init (redis_url : Option String) (redisCtorOk : Bool)
    (redisRaw : Except Unit (Option (List JobDict)))
    (localFile : Option (Except Unit (List JobDict))) : JobManager :=
  let rs : Option String :=
    match redis_url with
    | some u => if redisCtorOk then some u else none
    | none => none
  let jobs : List (String × Job) :=
    match rs with
    | some _ => loadFromData (RedisStore.load redisRaw)
    | none =>
        match localFile with
        | some (Except.ok data) => loadFromData data
        | some (Except.error _) => []
        | none => []
  { jobs := jobs, repo_locks := [], next_lock := 0
    redis_store := rs, persistLog := [] }

/-- A freshly constructed manager with no configured redis backend and no
pre-existing store file. -/
def JobManager.fresh : JobManager :=
  JobManager.init none true (Except.ok none) none

/-! ## Manager operation traces

A `MOp` is one serialized access to the job table: each of these runs under
`self.lock` in the source, so an execution of the process is an interleaving
(a list) of them.  `create` is the table effect of `create_job`; `updJob` a
public `update_job` call; `wStart` and `wEnd` are the two `_update` calls a
worker performs in `_run` around the task.  Each carries its `time.time()`
reading. -/

inductive MOp where
  | create (repo_url repo_type : String) (md : Metadata) (freshId : String) (now : ℚ)
  | updJob (job_id : String) (kw : List FieldUpdate) (now : ℚ)
  | wStart (job_id : String) (now : ℚ)
  | wEnd (job_id : String) (res : Except String Unit) (now : ℚ)

/-- The clock reading an operation happens at. -/
def MOp.nowOf : MOp → ℚ
  | .create _ _ _ _ t => t
  | .updJob _ _ t => t
  | .wStart _ t => t
  | .wEnd _ _ t => t

/-- Apply one serialized table operation to the manager state. -/
def applyOp (s : JobManager) : MOp → JobManager
  | .create ru rt md fid now => (s.create_job ru rt md fid now).1
  | .updJob jid kw now => s.update_job jid kw now
  | .wStart jid now => s.update jid startUpdates now
  | .wEnd jid res now => s.update jid (finishUpdates res) now

/-- Run a trace of table operations. -/
def applyOps (s : JobManager) (ops : List MOp) : JobManager :=
  ops.foldl applyOp s

/-- Status of job `j` in state `s`, when present. -/
def statusAt (s : JobManager) (j : String) : Option String :=
  (lookupD s.jobs j).map Job.status

/-- Lifecycle position encoded by a status string: `queued` 0, `running` 1,
terminal (`success`/`failed`) 2. -/
def statusRank : String → Nat
  | "running" => 1
  | "success" => 2
  | "failed" => 2
  | _ => 0

/-- Rank of job `j`'s current status (0 when the job does not exist yet). -/
def rankAt (s : JobManager) (j : String) : Nat :=
  match statusAt s j with
  | none => 0
  | some st => statusRank st

/-! ## Worker interleaving model

`Conf`/`Step` replay, statement by statement, the code the threads of the
pool run for submitted jobs (`_run`, lines 110-118, inlining
`_get_repo_lock` and the lock work of the two `_update` calls), tracking
only the synchronization state.  There are `n` workers; worker `w` runs the
`_run` closure of a job whose `repo_url` is `ks w`.  Lock objects have
identities (`Nat`), allocated by the registry exactly as
`self.repo_locks[repo_url] = threading.Lock()` does.

Program counter of a worker:
0 about to take `self.lock` inside `_get_repo_lock` (line 99);
1 holding `self.lock`, looking up / creating the repo lock (lines 100-102);
2 holding a reference to its repo lock, about to acquire it (line 112);
3 holding the repo lock, about to take `self.lock` for the RUNNING
  `_update` (line 113 entering line 124);
4 holding both locks, performing the RUNNING update and persist;
5 inside `task(job)` (line 115), holding only the repo lock;
6 task finished (returned or raised), about to take `self.lock` for the
  terminal `_update` (line 116 or 118);
7 holding both locks, performing the terminal update and persist;
8 about to release the repo lock (leaving the `with repo_lock` block);
9 done.

`create_job`, `get_job` and `list_jobs` also take `self.lock` but never a
repo lock, so they cannot affect which workers are inside their tasks;
they are left out of this synchronization model. -/

structure Conf (n : Nat) where
  pc : Fin n → Nat
  locks : List (String × Nat)
  next_lock : Nat
  heldLock : Fin n → Option Nat
  tableHolder : Option (Fin n)
  lockHolder : Nat → Option (Fin n)

/-- The initial configuration: no worker has started, the registry is empty,
no lock is held. -/
def initConf (n : Nat) : Conf n :=
  { pc := fun _ => 0
    locks := []
    next_lock := 0
    heldLock := fun _ => none
    tableHolder := none
    lockHolder := fun _ => none }

/-- One atomic step of one worker.  Acquiring a mutex requires it to be
free; the body of a `with self.lock` block is fused with its release (all
reads/writes of `self.repo_locks` happen under `self.lock`, so no other
thread can observe the intermediate states). -/
inductive Step {n : Nat} (ks : Fin n → String) : Conf n → Conf n → Prop where
  | acquireTableReg (c : Conf n) (w : Fin n)
      (hpc : c.pc w = 0) (ht : c.tableHolder = none) :
      Step ks c { c with pc := Function.update c.pc w 1, tableHolder := some w }
  | regFound (c : Conf n) (w : Fin n) (l : Nat)
      (hpc : c.pc w = 1) (ht : c.tableHolder = some w)
      (hl : lookupD c.locks (ks w) = some l) :
      Step ks c { c with pc := Function.update c.pc w 2
                         heldLock := Function.update c.heldLock w (some l)
                         tableHolder := none }
  | regCreate (c : Conf n) (w : Fin n)
      (hpc : c.pc w = 1) (ht : c.tableHolder = some w)
      (hl : lookupD c.locks (ks w) = none) :
      Step ks c { c with pc := Function.update c.pc w 2
                         locks := insertD c.locks (ks w) c.next_lock
                         next_lock := c.next_lock + 1
                         heldLock := Function.update c.heldLock w (some c.next_lock)
                         tableHolder := none }
  | acquireRepo (c : Conf n) (w : Fin n) (l : Nat)
      (hpc : c.pc w = 2) (hh : c.heldLock w = some l)
      (hfree : c.lockHolder l = none) :
      Step ks c { c with pc := Function.update c.pc w 3
                         lockHolder := Function.update c.lockHolder l (some w) }
  | acquireTableRun (c : Conf n) (w : Fin n)
      (hpc : c.pc w = 3) (ht : c.tableHolder = none) :
      Step ks c { c with pc := Function.update c.pc w 4, tableHolder := some w }
  | releaseTableRun (c : Conf n) (w : Fin n)
      (hpc : c.pc w = 4) (ht : c.tableHolder = some w) :
      Step ks c { c with pc := Function.update c.pc w 5, tableHolder := none }
  | taskStep (c : Conf n) (w : Fin n) (hpc : c.pc w = 5) :
      Step ks c { c with pc := Function.update c.pc w 6 }
  | acquireTableEnd (c : Conf n) (w : Fin n)
      (hpc : c.pc w = 6) (ht : c.tableHolder = none) :
      Step ks c { c with pc := Function.update c.pc w 7, tableHolder := some w }
  | releaseTableEnd (c : Conf n) (w : Fin n)
      (hpc : c.pc w = 7) (ht : c.tableHolder = some w) :
      Step ks c { c with pc := Function.update c.pc w 8, tableHolder := none }
  | releaseRepo (c : Conf n) (w : Fin n) (l : Nat)
      (hpc : c.pc w = 8) (hh : c.heldLock w = some l) :
      Step ks c { c with pc := Function.update c.pc w 9
                         lockHolder := Function.update c.lockHolder l none }

/-- Configurations reachable from the initial one by worker interleavings. -/
def Reachable {n : Nat} (ks : Fin n → String) (c : Conf n) : Prop :=
  Relation.ReflTransGen (Step ks) (initConf n) c

/-- Worker `w` is inside its execution interval for the repo lock: from the
acquisition at line 112 to the release at the end of the `with` block. -/
def inCrit {n : Nat} (c : Conf n) (w : Fin n) : Prop :=
  3 ≤ c.pc w ∧ c.pc w ≤ 8

/-- Worker `w` is inside `task(job)` (line 115). -/
def inTask {n : Nat} (c : Conf n) (w : Fin n) : Prop :=
  c.pc w = 5

/-- The mutex objects a `JobManager` instance owns: `self.lock`
(job_manager.py line 55) and the per-key locks stored in
`self.repo_locks`. -/
inductive MgrLock where
  | table
  | repo (lockId : Nat)
deriving DecidableEq

/-- The mutex `_get_repo_lock` takes around its lookup/creation of a repo
lock: the body is `with self.lock:` (line 99). -/
def registryGuard : MgrLock := MgrLock.table

/-- The mutex guarding the job table in `create_job`, `_update`,
`list_jobs` and `get_job` (lines 106, 124, 138, 142): the same
`self.lock`. -/
def tableGuard : MgrLock := MgrLock.table

/-! ## Association-list lemmas -/

theorem lookupD_insertD_self {α : Type} (d : List (String × α)) (k : String) (v : α) :
    lookupD (insertD d k v) k = some v := by
  induction d with
  | nil => simp [insertD, lookupD]
  | cons p rest ih =>
      by_cases h : p.1 = k
      · simp [insertD, h, lookupD]
      · simpa [insertD, h, lookupD] using ih

theorem lookupD_insertD_other {α : Type} (d : List (String × α)) (k k' : String) (v : α)
    (h : k ≠ k') : lookupD (insertD d k v) k' = lookupD d k' := by
  induction d with
  | nil => simp [insertD, lookupD, h]
  | cons p rest ih =>
      by_cases hp : p.1 = k
      · simp [insertD, hp, lookupD, h]
      · by_cases hp2 : p.1 = k'
        · simp [insertD, hp, lookupD, hp2, Ne.symm h]
        · simpa [insertD, hp, lookupD, hp2] using ih

theorem lookupD_append {α : Type} (d1 d2 : List (String × α)) (k : String) :
    lookupD (d1 ++ d2) k =
      match lookupD d1 k with
      | some v => some v
      | none => lookupD d2 k := by
  induction d1 with
  | nil => simp [lookupD]
  | cons p rest ih =>
      by_cases hp : p.1 = k
      · simp [lookupD, hp]
      · simpa [lookupD, hp] using ih

theorem insertD_eq_append {α : Type} (d : List (String × α)) (k : String) (v : α)
    (h : lookupD d k = none) : insertD d k v = d ++ [(k, v)] := by
  induction d with
  | nil => simp [insertD]
  | cons p rest ih =>
      by_cases hp : p.1 = k
      · simp [lookupD, hp] at h
      · simp only [lookupD, hp, if_neg] at h
        simp [insertD, hp, ih h]

theorem lookupD_mem {α : Type} (d : List (String × α)) (k : String) (v : α)
    (h : lookupD d k = some v) : (k, v) ∈ d := by
  induction d with
  | nil => simp [lookupD] at h
  | cons p rest ih =>
      match p with
      | (pk, pv) =>
        by_cases hp : pk = k
        · subst hp
          simp only [lookupD, if_pos] at h
          obtain rfl := Option.some.inj h
          exact List.mem_cons_self _ _
        · simp only [lookupD, hp, if_neg, if_false] at h
          exact List.mem_cons_of_mem _ (ih h)

theorem lookupD_isSome_insertD {α : Type} (d : List (String × α)) (k k' : String) (v : α)
    (h : (lookupD d k').isSome) : (lookupD (insertD d k v) k').isSome := by
  by_cases hk : k = k'
  · subst hk
    simp [lookupD_insertD_self]
  · rwa [lookupD_insertD_other d k k' v hk]

/-! ## Field-update lemmas -/

/-- Whether a keyword argument assigns the `status` attribute. -/
def FieldUpdate.isStatus : FieldUpdate → Bool
  | .status _ => true
  | _ => false

/-- Whether a keyword argument assigns only lifecycle attributes
(`status`, `error`, `progress`, `updated_at`) or is skipped; updates of
`id`, `repo_url`, `repo_type`, `created_at`, `metadata` are not frame
safe. -/
def FieldUpdate.frameSafe : FieldUpdate → Bool
  | .status _ => true
  | .error _ => true
  | .progress _ => true
  | .updated_at _ => true
  | .other _ => true
  | _ => false

theorem setField_status_of_not_isStatus (j : Job) (u : FieldUpdate)
    (h : u.isStatus = false) : (setField j u).status = j.status := by
  cases u <;> simp_all [setField, FieldUpdate.isStatus]

theorem applyUpdates_status_of_statusFree (kw : List FieldUpdate) :
    ∀ (j : Job), (∀ u ∈ kw, u.isStatus = false) →
      (applyUpdates j kw).status = j.status := by
  induction kw with
  | nil => intro j _; rfl
  | cons u rest ih =>
      intro j h
      have h1 : (setField j u).status = j.status :=
        setField_status_of_not_isStatus j u (h u (List.mem_cons_self u rest))
      have h2 := ih (setField j u) (fun v hv => h v (List.mem_cons_of_mem u hv))
      calc (applyUpdates j (u :: rest)).status
          = (applyUpdates (setField j u) rest).status := rfl
        _ = (setField j u).status := h2
        _ = j.status := h1

theorem setField_frame (j : Job) (u : FieldUpdate) (h : u.frameSafe = true) :
    (setField j u).id = j.id ∧ (setField j u).repo_url = j.repo_url ∧
    (setField j u).repo_type = j.repo_type ∧ (setField j u).created_at = j.created_at ∧
    (setField j u).metadata = j.metadata := by
  cases u <;> simp_all [setField, FieldUpdate.frameSafe]

theorem applyUpdates_frame (kw : List FieldUpdate) :
    ∀ (j : Job), (∀ u ∈ kw, u.frameSafe = true) →
      (applyUpdates j kw).id = j.id ∧ (applyUpdates j kw).repo_url = j.repo_url ∧
      (applyUpdates j kw).repo_type = j.repo_type ∧
      (applyUpdates j kw).created_at = j.created_at ∧
      (applyUpdates j kw).metadata = j.metadata := by
  induction kw with
  | nil => intro j _; exact ⟨rfl, rfl, rfl, rfl, rfl⟩
  | cons u rest ih =>
      intro j h
      obtain ⟨a1, b1, c1, d1, e1⟩ := setField_frame j u (h u (List.mem_cons_self u rest))
      obtain ⟨a2, b2, c2, d2, e2⟩ := ih (setField j u) (fun v hv => h v (List.mem_cons_of_mem u hv))
      exact ⟨a2.trans a1, b2.trans b1, c2.trans c1, d2.trans d1, e2.trans e1⟩

/-! ## Per-operation lemmas on the manager state -/

/-- The job id an operation addresses: the fresh id for a creation, the
`job_id` argument otherwise. -/
def MOp.jobIdOf : MOp → String
  | .create _ _ _ fid _ => fid
  | .updJob jid _ _ => jid
  | .wStart jid _ => jid
  | .wEnd jid _ _ => jid

theorem update_of_lookup_none (s : JobManager) (jid : String) (kw : List FieldUpdate)
    (now : ℚ) (h : lookupD s.jobs jid = none) : s.update jid kw now = s := by
  simp [JobManager.update, h]

theorem update_jobs_of_lookup_some (s : JobManager) (jid : String) (jb : Job)
    (kw : List FieldUpdate) (now : ℚ) (h : lookupD s.jobs jid = some jb) :
    (s.update jid kw now).jobs =
      insertD s.jobs jid { applyUpdates jb kw with updated_at := now } := by
  simp [JobManager.update, h, JobManager.persist]

theorem lookupD_update_self (s : JobManager) (jid : String) (jb : Job)
    (kw : List FieldUpdate) (now : ℚ) (h : lookupD s.jobs jid = some jb) :
    lookupD (s.update jid kw now).jobs jid =
      some { applyUpdates jb kw with updated_at := now } := by
  rw [update_jobs_of_lookup_some s jid jb kw now h, lookupD_insertD_self]

theorem lookupD_applyOp_other (s : JobManager) (op : MOp) (j : String)
    (h : op.jobIdOf ≠ j) : lookupD (applyOp s op).jobs j = lookupD s.jobs j := by
  cases op with
  | create ru rt md fid now =>
      simp only [MOp.jobIdOf] at h
      simp only [applyOp, JobManager.create_job, JobManager.persist, Job.init]
      exact lookupD_insertD_other _ _ _ _ h
  | updJob jid kw now =>
      simp only [MOp.jobIdOf] at h
      simp only [applyOp, JobManager.update_job]
      cases hl : lookupD s.jobs jid with
      | none => rw [update_of_lookup_none s jid kw now hl]
      | some jb =>
          rw [update_jobs_of_lookup_some s jid jb kw now hl]
          exact lookupD_insertD_other _ _ _ _ h
  | wStart jid now =>
      simp only [MOp.jobIdOf] at h
      simp only [applyOp]
      cases hl : lookupD s.jobs jid with
      | none => rw [update_of_lookup_none s jid _ now hl]
      | some jb =>
          rw [update_jobs_of_lookup_some s jid jb _ now hl]
          exact lookupD_insertD_other _ _ _ _ h
  | wEnd jid res now =>
      simp only [MOp.jobIdOf] at h
      simp only [applyOp]
      cases hl : lookupD s.jobs jid with
      | none => rw [update_of_lookup_none s jid _ now hl]
      | some jb =>
          rw [update_jobs_of_lookup_some s jid jb _ now hl]
          exact lookupD_insertD_other _ _ _ _ h

theorem lookupD_applyOp_isSome (s : JobManager) (op : MOp) (j : String)
    (h : (lookupD s.jobs j).isSome) : (lookupD (applyOp s op).jobs j).isSome := by
  cases op with
  | create ru rt md fid now =>
      simp only [applyOp, JobManager.create_job, JobManager.persist, Job.init]
      exact lookupD_isSome_insertD _ _ _ _ h
  | updJob jid kw now =>
      simp only [applyOp, JobManager.update_job]
      cases hl : lookupD s.jobs jid with
      | none => rwa [update_of_lookup_none s jid kw now hl]
      | some jb =>
          rw [update_jobs_of_lookup_some s jid jb kw now hl]
          exact lookupD_isSome_insertD _ _ _ _ h
  | wStart jid now =>
      simp only [applyOp]
      cases hl : lookupD s.jobs jid with
      | none => rwa [update_of_lookup_none s jid _ now hl]
      | some jb =>
          rw [update_jobs_of_lookup_some s jid jb _ now hl]
          exact lookupD_isSome_insertD _ _ _ _ h
  | wEnd jid res now =>
      simp only [applyOp]
      cases hl : lookupD s.jobs jid with
      | none => rwa [update_of_lookup_none s jid _ now hl]
      | some jb =>
          rw [update_jobs_of_lookup_some s jid jb _ now hl]
          exact lookupD_isSome_insertD _ _ _ _ h

theorem lookupD_applyOps_isSome (s : JobManager) (tr : List MOp) (j : String)
    (h : (lookupD s.jobs j).isSome) : (lookupD (applyOps s tr).jobs j).isSome := by
  induction tr generalizing s with
  | nil => exact h
  | cons op rest ih => exact ih (applyOp s op) (lookupD_applyOp_isSome s op j h)

theorem applyOps_append (s : JobManager) (p q : List MOp) :
    applyOps s (p ++ q) = applyOps (applyOps s p) q :=
  List.foldl_append applyOp s p q

/-! ## Lifecycle tags

The operations that write the `status` attribute of a given job in the
source are: its creation (line 31), the RUNNING update of its worker
(line 113), the terminal update of its worker (line 116 or 118), and any
`update_job` call that passes a `status` keyword.  A trace is faithful to
the execution protocol of `create_job`/`_run` when, for each job id, the
subsequence of creation/worker operations for that id is an initial part
of: create, then worker start, then worker end — `create_job` creates a
job once with a fresh uuid, and submits exactly one `_run` for it, which
performs its two updates in order. -/

inductive LifeTag where
  | C
  | S
  | E
deriving DecidableEq

/-- The lifecycle tag an operation carries for job `j`, if any. -/
def tagFor (j : String) : MOp → Option LifeTag
  | .create _ _ _ fid _ => if fid = j then some .C else none
  | .updJob _ _ _ => none
  | .wStart jid _ => if jid = j then some .S else none
  | .wEnd jid _ _ => if jid = j then some .E else none

/-- The lifecycle tags of a trace, restricted to job `j`. -/
def lifeTags (j : String) (ops : List MOp) : List LifeTag :=
  ops.filterMap (tagFor j)

/-- The full lifecycle pattern: created, started, ended. -/
def lifePattern : List LifeTag := [.C, .S, .E]

/-- `update_job` calls addressed to `j` in the trace never pass a `status`
keyword (the spec's `UpdateProgress` only posts `progress`). -/
def statusFreeFor (j : String) : MOp → Prop
  | .updJob jid kw _ => jid = j → ∀ u ∈ kw, u.isStatus = false
  | _ => True

theorem lifeTags_append (j : String) (p q : List MOp) :
    lifeTags j (p ++ q) = lifeTags j p ++ lifeTags j q :=
  List.filterMap_append p q (tagFor j)

theorem take_lifePattern (k : Nat) :
    lifePattern.take k = [] ∨ lifePattern.take k = [.C] ∨
    lifePattern.take k = [.C, .S] ∨ lifePattern.take k = [.C, .S, .E] := by
  match k with
  | 0 => left; rfl
  | 1 => right; left; rfl
  | 2 => right; right; left; rfl
  | (m + 3) =>
      right; right; right
      simp [lifePattern, List.take_succ_cons]

theorem append_eq_take {α : Type} (l1 l2 pat : List α) (k : Nat)
    (h : l1 ++ l2 = pat.take k) : l1 = pat.take (min l1.length k) := by
  have h1 : (l1 ++ l2).take l1.length = l1 := List.take_left l1 l2
  rw [h, List.take_take] at h1
  exact h1.symm

/-- A status-writing operation cannot change `statusAt` when it carries no
lifecycle tag for `j` and is status-free for `j`. -/
theorem statusAt_applyOp_of_tag_none (s : JobManager) (op : MOp) (j : String)
    (htag : tagFor j op = none) (hsf : statusFreeFor j op) :
    statusAt (applyOp s op) j = statusAt s j := by
  cases op with
  | create ru rt md fid now =>
      simp only [tagFor] at htag
      by_cases hfid : fid = j
      · simp [hfid] at htag
      · unfold statusAt
        rw [lookupD_applyOp_other s (MOp.create ru rt md fid now) j hfid]
  | updJob jid kw now =>
      by_cases hjid : jid = j
      · subst hjid
        cases hl : lookupD s.jobs jid with
        | none =>
            unfold statusAt
            simp only [applyOp, JobManager.update_job]
            rw [update_of_lookup_none s jid kw now hl]
        | some jb =>
            unfold statusAt
            simp only [applyOp, JobManager.update_job]
            rw [lookupD_update_self s jid jb kw now hl, hl]
            simp only [Option.map_some]
            have := applyUpdates_status_of_statusFree kw jb (hsf rfl)
            simp [this]
      · unfold statusAt
        rw [lookupD_applyOp_other s (MOp.updJob jid kw now) j hjid]
  | wStart jid now =>
      simp only [tagFor] at htag
      by_cases hjid : jid = j
      · simp [hjid] at htag
      · unfold statusAt
        rw [lookupD_applyOp_other s (MOp.wStart jid now) j hjid]
  | wEnd jid res now =>
      simp only [tagFor] at htag
      by_cases hjid : jid = j
      · simp [hjid] at htag
      · unfold statusAt
        rw [lookupD_applyOp_other s (MOp.wEnd jid res now) j hjid]


/-! ## Evolution of updated_at -/

/-- The `updated_at` field of job `j` in state `s`, when present. -/
def updAt (s : JobManager) (j : String) : Option ℚ :=
  (lookupD s.jobs j).map Job.updated_at

theorem updAt_applyOp (s : JobManager) (op : MOp) (j : String) :
    updAt (applyOp s op) j = updAt s j ∨ updAt (applyOp s op) j = some op.nowOf := by
  cases op with
  | create ru rt md fid now =>
      by_cases hfid : fid = j
      · right
        subst hfid
        unfold updAt
        simp only [applyOp, JobManager.create_job, JobManager.persist, Job.init, MOp.nowOf]
        rw [lookupD_insertD_self]
        rfl
      · left
        unfold updAt
        rw [lookupD_applyOp_other s (MOp.create ru rt md fid now) j hfid]
  | updJob jid kw now =>
      by_cases hjid : jid = j
      · subst hjid
        cases hl : lookupD s.jobs jid with
        | none =>
            left
            unfold updAt
            simp only [applyOp, JobManager.update_job]
            rw [update_of_lookup_none s jid kw now hl]
        | some jb =>
            right
            unfold updAt
            simp only [applyOp, JobManager.update_job, MOp.nowOf]
            rw [lookupD_update_self s jid jb kw now hl]
            rfl
      · left
        unfold updAt
        rw [lookupD_applyOp_other s (MOp.updJob jid kw now) j hjid]
  | wStart jid now =>
      by_cases hjid : jid = j
      · subst hjid
        cases hl : lookupD s.jobs jid with
        | none =>
            left
            unfold updAt
            simp only [applyOp]
            rw [update_of_lookup_none s jid _ now hl]
        | some jb =>
            right
            unfold updAt
            simp only [applyOp, MOp.nowOf]
            rw [lookupD_update_self s jid jb _ now hl]
            rfl
      · left
        unfold updAt
        rw [lookupD_applyOp_other s (MOp.wStart jid now) j hjid]
  | wEnd jid res now =>
      by_cases hjid : jid = j
      · subst hjid
        cases hl : lookupD s.jobs jid with
        | none =>
            left
            unfold updAt
            simp only [applyOp]
            rw [update_of_lookup_none s jid _ now hl]
        | some jb =>
            right
            unfold updAt
            simp only [applyOp, MOp.nowOf]
            rw [lookupD_update_self s jid jb _ now hl]
            rfl
      · left
        unfold updAt
        rw [lookupD_applyOp_other s (MOp.wEnd jid res now) j hjid]

theorem updAt_mem (j : String) (p : List MOp) (u : ℚ)
    (h : updAt (applyOps JobManager.fresh p) j = some u) : u ∈ p.map MOp.nowOf := by
  induction p using List.reverseRecOn with
  | nil =>
      simp [applyOps, updAt, JobManager.fresh, JobManager.init, lookupD] at h
  | append_singleton p op ih =>
      rw [applyOps_append] at h
      have h1 : updAt (applyOp (applyOps JobManager.fresh p) op) j = some u := h
      rcases updAt_applyOp (applyOps JobManager.fresh p) op j with heq | heq
      · rw [heq] at h1
        have := ih h1
        simp only [List.map_append, List.mem_append]
        exact Or.inl this
      · rw [heq] at h1
        obtain rfl := Option.some.inj h1
        simp

/-! ## Status lifecycle -/

/-- What the status of a job must be, given which of its lifecycle
operations have happened: absent before creation, `queued` after creation,
`running` after the worker's RUNNING update, terminal after the worker's
final update.  Tag lists not generated by the execution protocol are
unconstrained. -/
def shapeSpec : List LifeTag → Option String → Prop
  | [], st => st = none
  | [.C], st => st = some JobStatus.QUEUED
  | [.C, .S], st => st = some JobStatus.RUNNING
  | [.C, .S, .E], st => ∃ v, st = some v ∧ statusRank v = 2
  | _, _ => True

theorem statusAt_create_self (s : JobManager) (ru rt : String) (md : Metadata)
    (j : String) (now : ℚ) :
    statusAt (applyOp s (MOp.create ru rt md j now)) j = some JobStatus.QUEUED := by
  unfold statusAt
  simp only [applyOp, JobManager.create_job, JobManager.persist]
  rw [show (Job.init ru rt md j now).id = j from rfl]
  rw [lookupD_insertD_self]
  rfl

theorem statusAt_wStart_self (s : JobManager) (j : String) (now : ℚ) (jb : Job)
    (hl : lookupD s.jobs j = some jb) :
    statusAt (applyOp s (MOp.wStart j now)) j = some JobStatus.RUNNING := by
  unfold statusAt
  simp only [applyOp]
  rw [lookupD_update_self s j jb _ now hl]
  rfl

theorem statusAt_wEnd_self (s : JobManager) (j : String) (res : Except String Unit)
    (now : ℚ) (jb : Job) (hl : lookupD s.jobs j = some jb) :
    statusAt (applyOp s (MOp.wEnd j res now)) j = some JobStatus.SUCCESS ∨
    statusAt (applyOp s (MOp.wEnd j res now)) j = some JobStatus.FAILED := by
  cases res with
  | ok u =>
      left
      unfold statusAt
      simp only [applyOp]
      rw [lookupD_update_self s j jb _ now hl]
      rfl
  | error e =>
      right
      unfold statusAt
      simp only [applyOp]
      rw [lookupD_update_self s j jb _ now hl]
      rfl

theorem shape_run (j : String) : ∀ p : List MOp,
    (∃ k, lifeTags j p = lifePattern.take k) →
    (∀ op ∈ p, statusFreeFor j op) →
    shapeSpec (lifeTags j p) (statusAt (applyOps JobManager.fresh p) j) := by
  intro p
  induction p using List.reverseRecOn with
  | nil =>
      intro _ _
      simp [lifeTags, shapeSpec, statusAt, applyOps, JobManager.fresh,
        JobManager.init, lookupD]
  | append_singleton p op ih =>
      intro hwf hsf
      obtain ⟨k, hk⟩ := hwf
      rw [lifeTags_append] at hk
      have hkp : lifeTags j p = lifePattern.take (min (lifeTags j p).length k) :=
        append_eq_take _ _ _ k hk
      have hshape := ih ⟨_, hkp⟩ (fun o ho => hsf o (List.mem_append_left _ ho))
      have hsfop : statusFreeFor j op :=
        hsf op (List.mem_append_right _ (List.mem_cons_self _ _))
      have hrun : applyOps JobManager.fresh (p ++ [op]) =
          applyOp (applyOps JobManager.fresh p) op := by
        rw [applyOps_append]; rfl
      cases htag : tagFor j op with
      | none =>
          have htags1 : lifeTags j [op] = [] := by
            simp [lifeTags, List.filterMap, htag]
          rw [lifeTags_append, htags1, List.append_nil, hrun,
            statusAt_applyOp_of_tag_none _ op j htag hsfop]
          exact hshape
      | some tag =>
          have htags1 : lifeTags j [op] = [tag] := by
            simp [lifeTags, List.filterMap, htag]
          rw [htags1] at hk
          rw [lifeTags_append, htags1]
          cases op with
          | updJob jid kw now => exact absurd htag (by simp [tagFor])
          | create ru rt md fid now =>
              obtain ⟨hfid, htagC⟩ : j = fid ∧ tag = LifeTag.C := by
                simp only [tagFor] at htag
                split at htag
                next h => exact ⟨h.symm, (Option.some.inj htag).symm⟩
                next h => exact absurd htag (by simp)
              subst hfid
              subst htagC
              rcases take_lifePattern (min (lifeTags j p).length k) with hp0 | hp0 | hp0 | hp0 <;>
                rw [hkp.trans hp0] at hk ⊢
              · rw [hrun, statusAt_create_self]
                rfl
              · exfalso
                rcases take_lifePattern k with h | h | h | h <;> rw [h] at hk <;> simp at hk
              · exfalso
                rcases take_lifePattern k with h | h | h | h <;> rw [h] at hk <;> simp at hk
              · exfalso
                rcases take_lifePattern k with h | h | h | h <;> rw [h] at hk <;> simp at hk
          | wStart jid now =>
              obtain ⟨hjid, htagS⟩ : j = jid ∧ tag = LifeTag.S := by
                simp only [tagFor] at htag
                split at htag
                next h => exact ⟨h.symm, (Option.some.inj htag).symm⟩
                next h => exact absurd htag (by simp)
              subst hjid
              subst htagS
              rcases take_lifePattern (min (lifeTags j p).length k) with hp0 | hp0 | hp0 | hp0 <;>
                rw [hkp.trans hp0] at hk ⊢ <;> rw [hkp.trans hp0] at hshape
              · exfalso
                rcases take_lifePattern k with h | h | h | h <;> rw [h] at hk <;> simp at hk
              · obtain ⟨jb, hjb, _⟩ := Option.map_eq_some'.mp hshape
                rw [hrun, statusAt_wStart_self _ j now jb hjb]
                rfl
              · exfalso
                rcases take_lifePattern k with h | h | h | h <;> rw [h] at hk <;> simp at hk
              · exfalso
                rcases take_lifePattern k with h | h | h | h <;> rw [h] at hk <;> simp at hk
          | wEnd jid res now =>
              obtain ⟨hjid, htagE⟩ : j = jid ∧ tag = LifeTag.E := by
                simp only [tagFor] at htag
                split at htag
                next h => exact ⟨h.symm, (Option.some.inj htag).symm⟩
                next h => exact absurd htag (by simp)
              subst hjid
              subst htagE
              rcases take_lifePattern (min (lifeTags j p).length k) with hp0 | hp0 | hp0 | hp0 <;>
                rw [hkp.trans hp0] at hk ⊢ <;> rw [hkp.trans hp0] at hshape
              · exfalso
                rcases take_lifePattern k with h | h | h | h <;> rw [h] at hk <;> simp at hk
              · exfalso
                rcases take_lifePattern k with h | h | h | h <;> rw [h] at hk <;> simp at hk
              · obtain ⟨jb, hjb, _⟩ := Option.map_eq_some'.mp hshape
                rcases statusAt_wEnd_self _ j res now jb hjb with hend | hend <;>
                  rw [hrun, hend]
                · exact ⟨_, rfl, by decide⟩
                · exact ⟨_, rfl, by decide⟩
              · exfalso
                rcases take_lifePattern k with h | h | h | h <;> rw [h] at hk <;> simp at hk

/-- Lifecycle rank determined by how many lifecycle operations have
happened. -/
def rankOfLen : Nat → Nat
  | 0 => 0
  | 1 => 0
  | 2 => 1
  | _ => 2

theorem rankOfLen_le_succ (n : Nat) : rankOfLen n ≤ rankOfLen (n + 1) := by
  match n with
  | 0 => exact Nat.le_refl _
  | 1 => exact Nat.zero_le _
  | 2 => exact Nat.le_refl _ |>.trans (by decide)
  | (m + 3) => exact Nat.le_refl _

theorem rank_eq (j : String) (p : List MOp)
    (hwf : ∃ k, lifeTags j p = lifePattern.take k)
    (hsf : ∀ op ∈ p, statusFreeFor j op) :
    rankAt (applyOps JobManager.fresh p) j = rankOfLen (lifeTags j p).length := by
  have hs := shape_run j p hwf hsf
  obtain ⟨k, hk⟩ := hwf
  rcases take_lifePattern k with h | h | h | h <;> rw [h] at hk <;> rw [hk] at hs ⊢
  · simp only [shapeSpec] at hs
    simp [rankAt, hs, rankOfLen]
  · simp only [shapeSpec] at hs
    simp [rankAt, hs, rankOfLen, statusRank, JobStatus.QUEUED]
  · simp only [shapeSpec] at hs
    simp [rankAt, hs, rankOfLen, statusRank, JobStatus.RUNNING]
  · simp only [shapeSpec] at hs
    obtain ⟨v, hv, hr⟩ := hs
    simp [rankAt, hv, hr, rankOfLen]

theorem lifeTags_le_three (j : String) (ops : List MOp) (k : Nat)
    (h : lifeTags j ops = lifePattern.take k) : (lifeTags j ops).length ≤ 3 := by
  rw [h, List.length_take]
  exact le_trans (Nat.min_le_right _ _) (by decide)

/-- Monotonicity bridge used by the status theorem: along a protocol trace
the rank after each operation is the rank of the tag count. -/
theorem status_step_facts (ops : List MOp) (j : String)
    (hwf : ∃ k, lifeTags j ops = lifePattern.take k)
    (hsf : ∀ op ∈ ops, statusFreeFor j op) :
    ∀ p op rest, ops = p ++ op :: rest →
      rankAt (applyOps JobManager.fresh p) j ≤
        rankAt (applyOps JobManager.fresh (p ++ [op])) j
      ∧ (rankAt (applyOps JobManager.fresh p) j = 2 →
          statusAt (applyOps JobManager.fresh (p ++ [op])) j
            = statusAt (applyOps JobManager.fresh p) j) := by
  intro p op rest heq
  subst heq
  obtain ⟨k, hk⟩ := hwf
  rw [List.append_cons p op rest, lifeTags_append] at hk
  have hk1 : lifeTags j (p ++ [op]) =
      lifePattern.take (min (lifeTags j (p ++ [op])).length k) :=
    append_eq_take _ _ _ k hk
  have hk1b := hk1
  rw [lifeTags_append] at hk1b
  have hk2 := append_eq_take _ _ _ _ hk1b
  have hsf1 : ∀ o ∈ p ++ [op], statusFreeFor j o := by
    intro o ho
    exact hsf o (by rw [List.append_cons p op rest]; exact List.mem_append_left _ ho)
  have hsfp : ∀ o ∈ p, statusFreeFor j o :=
    fun o ho => hsf1 o (List.mem_append_left _ ho)
  have hsfop : statusFreeFor j op :=
    hsf1 op (List.mem_append_right _ (List.mem_cons_self _ _))
  have r1 := rank_eq j p ⟨_, hk2⟩ hsfp
  have r2 := rank_eq j (p ++ [op]) ⟨_, hk1⟩ hsf1
  constructor
  · rw [r1, r2, lifeTags_append]
    cases htag : tagFor j op with
    | none =>
        have : lifeTags j [op] = [] := by simp [lifeTags, List.filterMap, htag]
        rw [this, List.append_nil]
    | some tag =>
        have : lifeTags j [op] = [tag] := by simp [lifeTags, List.filterMap, htag]
        rw [this, List.length_append, List.length_singleton]
        exact rankOfLen_le_succ _
  · intro hrk
    cases htag : tagFor j op with
    | none =>
        have hrw : applyOps JobManager.fresh (p ++ [op]) =
            applyOp (applyOps JobManager.fresh p) op := by
          rw [applyOps_append]; rfl
        rw [hrw, statusAt_applyOp_of_tag_none _ op j htag hsfop]
    | some tag =>
        exfalso
        rw [r1] at hrk
        have hlen3 : (lifeTags j p).length = 3 := by
          have hle := lifeTags_le_three j p _ hk2
          rcases Nat.lt_or_ge (lifeTags j p).length 3 with hlt | hge
          · exfalso
            revert hrk
            unfold rankOfLen
            match h3 : (lifeTags j p).length, hlt with
            | 0, _ => simp
            | 1, _ => simp
            | 2, _ => simp
          · exact Nat.le_antisymm hle hge
        have hsing : lifeTags j [op] = [tag] := by
          simp [lifeTags, List.filterMap, htag]
        have hlen4 : (lifeTags j (p ++ [op])).length = 4 := by
          rw [lifeTags_append, hsing, List.length_append, hlen3]
          rfl
        have := lifeTags_le_three j (p ++ [op]) _ hk1
        rw [hlen4] at this
        exact absurd this (by decide)

/-! ## Frame preservation of creation-time fields -/

/-- An operation respects the creation-time fields of job `j`: `update_job`
calls addressed to `j` pass only lifecycle keywords, and fresh uuids never
collide with `j`. -/
def frameSafeFor (j : String) : MOp → Prop
  | .updJob jid kw _ => jid = j → ∀ u ∈ kw, u.frameSafe = true
  | .create _ _ _ fid _ => fid ≠ j
  | _ => True

theorem finishUpdates_frameSafe (res : Except String Unit) :
    ∀ u ∈ finishUpdates res, u.frameSafe = true := by
  cases res with
  | ok v =>
      intro u hu
      simp only [finishUpdates, List.mem_cons, List.not_mem_nil, or_false] at hu
      rcases hu with rfl | rfl <;> rfl
  | error e =>
      intro u hu
      simp only [finishUpdates, List.mem_cons, List.not_mem_nil, or_false] at hu
      rcases hu with rfl | rfl | rfl <;> rfl

theorem frame_applyOp (s : JobManager) (op : MOp) (j : String) (r : Job)
    (hl : lookupD s.jobs j = some r) (hsafe : frameSafeFor j op) :
    ∃ r2, lookupD (applyOp s op).jobs j = some r2 ∧ r2.id = r.id ∧
      r2.repo_url = r.repo_url ∧ r2.repo_type = r.repo_type ∧
      r2.created_at = r.created_at ∧ r2.metadata = r.metadata := by
  cases op with
  | create ru rt md fid now =>
      refine ⟨r, ?_, rfl, rfl, rfl, rfl, rfl⟩
      rw [lookupD_applyOp_other s (MOp.create ru rt md fid now) j hsafe]
      exact hl
  | updJob jid kw now =>
      by_cases hjid : jid = j
      · subst hjid
        obtain ⟨h1, h2, h3, h4, h5⟩ := applyUpdates_frame kw r (hsafe rfl)
        exact ⟨_, lookupD_update_self s jid r kw now hl, h1, h2, h3, h4, h5⟩
      · refine ⟨r, ?_, rfl, rfl, rfl, rfl, rfl⟩
        rw [lookupD_applyOp_other s (MOp.updJob jid kw now) j hjid]
        exact hl
  | wStart jid now =>
      by_cases hjid : jid = j
      · subst hjid
        obtain ⟨h1, h2, h3, h4, h5⟩ :=
          applyUpdates_frame startUpdates r (by decide)
        exact ⟨_, lookupD_update_self s jid r _ now hl, h1, h2, h3, h4, h5⟩
      · refine ⟨r, ?_, rfl, rfl, rfl, rfl, rfl⟩
        rw [lookupD_applyOp_other s (MOp.wStart jid now) j hjid]
        exact hl
  | wEnd jid res now =>
      by_cases hjid : jid = j
      · subst hjid
        obtain ⟨h1, h2, h3, h4, h5⟩ :=
          applyUpdates_frame (finishUpdates res) r (finishUpdates_frameSafe res)
        exact ⟨_, lookupD_update_self s jid r _ now hl, h1, h2, h3, h4, h5⟩
      · refine ⟨r, ?_, rfl, rfl, rfl, rfl, rfl⟩
        rw [lookupD_applyOp_other s (MOp.wEnd jid res now) j hjid]
        exact hl

theorem frame_applyOps (q : List MOp) (j : String) :
    ∀ (s : JobManager) (r : Job), lookupD s.jobs j = some r →
      (∀ op ∈ q, frameSafeFor j op) →
      ∃ r2, lookupD (applyOps s q).jobs j = some r2 ∧ r2.id = r.id ∧
        r2.repo_url = r.repo_url ∧ r2.repo_type = r.repo_type ∧
        r2.created_at = r.created_at ∧ r2.metadata = r.metadata := by
  induction q with
  | nil => exact fun s r hl _ => ⟨r, hl, rfl, rfl, rfl, rfl, rfl⟩
  | cons op rest ih =>
      intro s r hl hsafe
      obtain ⟨r1, hl1, a1, b1, c1, d1, e1⟩ :=
        frame_applyOp s op j r hl (hsafe op (List.mem_cons_self _ _))
      obtain ⟨r2, hl2, a2, b2, c2, d2, e2⟩ :=
        ih (applyOp s op) r1 hl1 (fun o ho => hsafe o (List.mem_cons_of_mem _ ho))
      exact ⟨r2, hl2, a2.trans a1, b2.trans b1, c2.trans c1, d2.trans d1, e2.trans e1⟩

/-! ## Invariant of the worker interleaving model -/

/-- Inductive invariant of `Step`: the table mutex is held exactly by the
workers whose program counter is inside a `with self.lock` body (1, 4, 7);
any worker past the registry lookup holds a reference to exactly the
registry's lock for its key; and a worker is between repo-lock acquisition
and release exactly when the repo lock it references records it as
holder. -/
structure ConfInv {n : Nat} (ks : Fin n → String) (c : Conf n) : Prop where
  table_pc : ∀ w, c.tableHolder = some w → c.pc w = 1 ∨ c.pc w = 4 ∨ c.pc w = 7
  pc_table : ∀ w, c.pc w = 1 ∨ c.pc w = 4 ∨ c.pc w = 7 → c.tableHolder = some w
  held_reg : ∀ w, 2 ≤ c.pc w → ∃ l, c.heldLock w = some l ∧ lookupD c.locks (ks w) = some l
  crit_holder : ∀ w l, inCrit c w → c.heldLock w = some l → c.lockHolder l = some w
  holder_crit : ∀ l w, c.lockHolder l = some w → inCrit c w ∧ c.heldLock w = some l

theorem init_inv {n : Nat} (ks : Fin n → String) : ConfInv ks (initConf n) := by
  constructor
  · intro w h
    exact absurd h (by simp [initConf])
  · intro w h
    exfalso
    rcases h with h | h | h <;> simp [initConf] at h
  · intro w h
    exfalso
    simp [initConf] at h
  · intro w l hcrit _
    exfalso
    obtain ⟨h3, _⟩ := hcrit
    simp [initConf] at h3
  · intro l w h
    exact absurd h (by simp [initConf])


theorem step_inv {n : Nat} (ks : Fin n → String) (c c2 : Conf n)
    (hinv : ConfInv ks c) (hstep : Step ks c c2) : ConfInv ks c2 := by
  obtain ⟨table_pc, pc_table, held_reg, crit_holder, holder_crit⟩ := hinv
  cases hstep with
  | acquireTableReg w hpc ht =>
      constructor
      · dsimp only
        intro w2 h
        obtain rfl := Option.some.inj h
        left
        rw [Function.update_same]
      · dsimp only
        intro w2 h
        by_cases hww : w2 = w
        · subst hww; rfl
        · rw [Function.update_noteq hww] at h
          exact absurd (pc_table w2 h) (by rw [ht]; simp)
      · dsimp only
        intro w2 h
        by_cases hww : w2 = w
        · subst hww
          rw [Function.update_same] at h
          omega
        · rw [Function.update_noteq hww] at h
          exact held_reg w2 h
      · dsimp only [inCrit]
        intro w2 l hcrit hh
        obtain ⟨h3, h8⟩ := hcrit
        by_cases hww : w2 = w
        · subst hww
          rw [Function.update_same] at h3
          omega
        · rw [Function.update_noteq hww] at h3 h8
          exact crit_holder w2 l ⟨h3, h8⟩ hh
      · dsimp only [inCrit]
        intro l w2 h
        obtain ⟨⟨h3, h8⟩, hh⟩ := holder_crit l w2 h
        have hww : w2 ≠ w := by
          intro hww
          subst hww
          rw [hpc] at h3
          omega
        rw [Function.update_noteq hww]
        exact ⟨⟨h3, h8⟩, hh⟩
  | regFound w l hpc ht hl =>
      constructor
      · dsimp only
        intro w2 h
        exact absurd h (by simp)
      · dsimp only
        intro w2 h
        by_cases hww : w2 = w
        · subst hww
          rw [Function.update_same] at h
          omega
        · rw [Function.update_noteq hww] at h
          have h2 := pc_table w2 h
          rw [ht] at h2
          obtain rfl := Option.some.inj h2.symm
          exact absurd rfl hww
      · dsimp only
        intro w2 h
        by_cases hww : w2 = w
        · subst hww
          exact ⟨l, by rw [Function.update_same], hl⟩
        · rw [Function.update_noteq hww] at h
          rw [Function.update_noteq hww]
          exact held_reg w2 h
      · dsimp only [inCrit]
        intro w2 l2 hcrit hh
        obtain ⟨h3, h8⟩ := hcrit
        by_cases hww : w2 = w
        · subst hww
          rw [Function.update_same] at h3
          omega
        · rw [Function.update_noteq hww] at h3 h8 hh
          exact crit_holder w2 l2 ⟨h3, h8⟩ hh
      · dsimp only [inCrit]
        intro l2 w2 h
        obtain ⟨⟨h3, h8⟩, hh⟩ := holder_crit l2 w2 h
        have hww : w2 ≠ w := by
          intro hww
          subst hww
          rw [hpc] at h3
          omega
        rw [Function.update_noteq hww, Function.update_noteq hww]
        exact ⟨⟨h3, h8⟩, hh⟩
  | regCreate w hpc ht hl =>
      constructor
      · dsimp only
        intro w2 h
        exact absurd h (by simp)
      · dsimp only
        intro w2 h
        by_cases hww : w2 = w
        · subst hww
          rw [Function.update_same] at h
          omega
        · rw [Function.update_noteq hww] at h
          have h2 := pc_table w2 h
          rw [ht] at h2
          obtain rfl := Option.some.inj h2.symm
          exact absurd rfl hww
      · dsimp only
        intro w2 h
        by_cases hww : w2 = w
        · subst hww
          refine ⟨c.next_lock, by rw [Function.update_same], ?_⟩
          rw [lookupD_insertD_self]
        · rw [Function.update_noteq hww] at h
          rw [Function.update_noteq hww]
          obtain ⟨l2, hh2, hlook2⟩ := held_reg w2 h
          refine ⟨l2, hh2, ?_⟩
          have hkne : ks w ≠ ks w2 := by
            intro hkeq
            rw [← hkeq, hl] at hlook2
            exact Option.noConfusion hlook2
          rw [lookupD_insertD_other _ _ _ _ hkne]
          exact hlook2
      · dsimp only [inCrit]
        intro w2 l2 hcrit hh
        obtain ⟨h3, h8⟩ := hcrit
        by_cases hww : w2 = w
        · subst hww
          rw [Function.update_same] at h3
          omega
        · rw [Function.update_noteq hww] at h3 h8 hh
          exact crit_holder w2 l2 ⟨h3, h8⟩ hh
      · dsimp only [inCrit]
        intro l2 w2 h
        obtain ⟨⟨h3, h8⟩, hh⟩ := holder_crit l2 w2 h
        have hww : w2 ≠ w := by
          intro hww
          subst hww
          rw [hpc] at h3
          omega
        rw [Function.update_noteq hww, Function.update_noteq hww]
        exact ⟨⟨h3, h8⟩, hh⟩
  | acquireRepo w l hpc hh hfree =>
      constructor
      · dsimp only
        intro w2 h
        have h2 := table_pc w2 h
        by_cases hww : w2 = w
        · subst hww
          rw [hpc] at h2
          omega
        · rw [Function.update_noteq hww]
          exact h2
      · dsimp only
        intro w2 h
        by_cases hww : w2 = w
        · subst hww
          rw [Function.update_same] at h
          omega
        · rw [Function.update_noteq hww] at h
          exact pc_table w2 h
      · dsimp only
        intro w2 h2
        by_cases hww : w2 = w
        · subst hww
          exact held_reg w2 (by omega)
        · rw [Function.update_noteq hww] at h2
          exact held_reg w2 h2
      · dsimp only [inCrit]
        intro w2 l2 hcrit hh2
        obtain ⟨h3, h8⟩ := hcrit
        by_cases hww : w2 = w
        · subst hww
          obtain rfl : l2 = l := by
            rw [hh] at hh2
            exact (Option.some.inj hh2).symm
          rw [Function.update_same]
        · rw [Function.update_noteq hww] at h3 h8
          have hold := crit_holder w2 l2 ⟨h3, h8⟩ hh2
          by_cases hll : l2 = l
          · subst hll
            rw [hfree] at hold
            exact Option.noConfusion hold
          · rw [Function.update_noteq hll]
            exact hold
      · dsimp only [inCrit]
        intro l2 w2 h
        by_cases hll : l2 = l
        · subst hll
          rw [Function.update_same] at h
          obtain rfl := Option.some.inj h
          refine ⟨⟨?_, ?_⟩, hh⟩ <;> simp [Function.update_same]
        · rw [Function.update_noteq hll] at h
          obtain ⟨⟨h3, h8⟩, hh2⟩ := holder_crit l2 w2 h
          have hww : w2 ≠ w := by
            intro hww
            subst hww
            rw [hpc] at h3
            omega
          rw [Function.update_noteq hww]
          exact ⟨⟨h3, h8⟩, hh2⟩
  | acquireTableRun w hpc ht =>
      constructor
      · dsimp only
        intro w2 h
        obtain rfl := Option.some.inj h
        right; left
        rw [Function.update_same]
      · dsimp only
        intro w2 h
        by_cases hww : w2 = w
        · subst hww; rfl
        · rw [Function.update_noteq hww] at h
          exact absurd (pc_table w2 h) (by rw [ht]; simp)
      · dsimp only
        intro w2 h
        by_cases hww : w2 = w
        · subst hww
          exact held_reg w2 (by omega)
        · rw [Function.update_noteq hww] at h
          exact held_reg w2 h
      · dsimp only [inCrit]
        intro w2 l2 hcrit hh2
        obtain ⟨h3, h8⟩ := hcrit
        by_cases hww : w2 = w
        · subst hww
          exact crit_holder w2 l2 ⟨by omega, by omega⟩ hh2
        · rw [Function.update_noteq hww] at h3 h8
          exact crit_holder w2 l2 ⟨h3, h8⟩ hh2
      · dsimp only [inCrit]
        intro l2 w2 h
        obtain ⟨⟨h3, h8⟩, hh2⟩ := holder_crit l2 w2 h
        by_cases hww : w2 = w
        · subst hww
          rw [Function.update_same]
          exact ⟨⟨by omega, by omega⟩, hh2⟩
        · rw [Function.update_noteq hww]
          exact ⟨⟨h3, h8⟩, hh2⟩
  | releaseTableRun w hpc ht =>
      constructor
      · dsimp only
        intro w2 h
        exact absurd h (by simp)
      · dsimp only
        intro w2 h
        by_cases hww : w2 = w
        · subst hww
          rw [Function.update_same] at h
          omega
        · rw [Function.update_noteq hww] at h
          have h2 := pc_table w2 h
          rw [ht] at h2
          obtain rfl := Option.some.inj h2.symm
          exact absurd rfl hww
      · dsimp only
        intro w2 h
        by_cases hww : w2 = w
        · subst hww
          exact held_reg w2 (by omega)
        · rw [Function.update_noteq hww] at h
          exact held_reg w2 h
      · dsimp only [inCrit]
        intro w2 l2 hcrit hh2
        obtain ⟨h3, h8⟩ := hcrit
        by_cases hww : w2 = w
        · subst hww
          exact crit_holder w2 l2 ⟨by omega, by omega⟩ hh2
        · rw [Function.update_noteq hww] at h3 h8
          exact crit_holder w2 l2 ⟨h3, h8⟩ hh2
      · dsimp only [inCrit]
        intro l2 w2 h
        obtain ⟨⟨h3, h8⟩, hh2⟩ := holder_crit l2 w2 h
        by_cases hww : w2 = w
        · subst hww
          rw [Function.update_same]
          exact ⟨⟨by omega, by omega⟩, hh2⟩
        · rw [Function.update_noteq hww]
          exact ⟨⟨h3, h8⟩, hh2⟩
  | taskStep w hpc =>
      constructor
      · dsimp only
        intro w2 h
        have h2 := table_pc w2 h
        by_cases hww : w2 = w
        · subst hww
          rw [hpc] at h2
          omega
        · rw [Function.update_noteq hww]
          exact h2
      · dsimp only
        intro w2 h
        by_cases hww : w2 = w
        · subst hww
          rw [Function.update_same] at h
          omega
        · rw [Function.update_noteq hww] at h
          exact pc_table w2 h
      · dsimp only
        intro w2 h
        by_cases hww : w2 = w
        · subst hww
          exact held_reg w2 (by omega)
        · rw [Function.update_noteq hww] at h
          exact held_reg w2 h
      · dsimp only [inCrit]
        intro w2 l2 hcrit hh2
        obtain ⟨h3, h8⟩ := hcrit
        by_cases hww : w2 = w
        · subst hww
          exact crit_holder w2 l2 ⟨by omega, by omega⟩ hh2
        · rw [Function.update_noteq hww] at h3 h8
          exact crit_holder w2 l2 ⟨h3, h8⟩ hh2
      · dsimp only [inCrit]
        intro l2 w2 h
        obtain ⟨⟨h3, h8⟩, hh2⟩ := holder_crit l2 w2 h
        by_cases hww : w2 = w
        · subst hww
          rw [Function.update_same]
          exact ⟨⟨by omega, by omega⟩, hh2⟩
        · rw [Function.update_noteq hww]
          exact ⟨⟨h3, h8⟩, hh2⟩
  | acquireTableEnd w hpc ht =>
      constructor
      · dsimp only
        intro w2 h
        obtain rfl := Option.some.inj h
        right; right
        rw [Function.update_same]
      · dsimp only
        intro w2 h
        by_cases hww : w2 = w
        · subst hww; rfl
        · rw [Function.update_noteq hww] at h
          exact absurd (pc_table w2 h) (by rw [ht]; simp)
      · dsimp only
        intro w2 h
        by_cases hww : w2 = w
        · subst hww
          exact held_reg w2 (by omega)
        · rw [Function.update_noteq hww] at h
          exact held_reg w2 h
      · dsimp only [inCrit]
        intro w2 l2 hcrit hh2
        obtain ⟨h3, h8⟩ := hcrit
        by_cases hww : w2 = w
        · subst hww
          exact crit_holder w2 l2 ⟨by omega, by omega⟩ hh2
        · rw [Function.update_noteq hww] at h3 h8
          exact crit_holder w2 l2 ⟨h3, h8⟩ hh2
      · dsimp only [inCrit]
        intro l2 w2 h
        obtain ⟨⟨h3, h8⟩, hh2⟩ := holder_crit l2 w2 h
        by_cases hww : w2 = w
        · subst hww
          rw [Function.update_same]
          exact ⟨⟨by omega, by omega⟩, hh2⟩
        · rw [Function.update_noteq hww]
          exact ⟨⟨h3, h8⟩, hh2⟩
  | releaseTableEnd w hpc ht =>
      constructor
      · dsimp only
        intro w2 h
        exact absurd h (by simp)
      · dsimp only
        intro w2 h
        by_cases hww : w2 = w
        · subst hww
          rw [Function.update_same] at h
          omega
        · rw [Function.update_noteq hww] at h
          have h2 := pc_table w2 h
          rw [ht] at h2
          obtain rfl := Option.some.inj h2.symm
          exact absurd rfl hww
      · dsimp only
        intro w2 h
        by_cases hww : w2 = w
        · subst hww
          exact held_reg w2 (by omega)
        · rw [Function.update_noteq hww] at h
          exact held_reg w2 h
      · dsimp only [inCrit]
        intro w2 l2 hcrit hh2
        obtain ⟨h3, h8⟩ := hcrit
        by_cases hww : w2 = w
        · subst hww
          exact crit_holder w2 l2 ⟨by omega, by omega⟩ hh2
        · rw [Function.update_noteq hww] at h3 h8
          exact crit_holder w2 l2 ⟨h3, h8⟩ hh2
      · dsimp only [inCrit]
        intro l2 w2 h
        obtain ⟨⟨h3, h8⟩, hh2⟩ := holder_crit l2 w2 h
        by_cases hww : w2 = w
        · subst hww
          rw [Function.update_same]
          exact ⟨⟨by omega, by omega⟩, hh2⟩
        · rw [Function.update_noteq hww]
          exact ⟨⟨h3, h8⟩, hh2⟩
  | releaseRepo w l hpc hh =>
      constructor
      · dsimp only
        intro w2 h
        have h2 := table_pc w2 h
        by_cases hww : w2 = w
        · subst hww
          rw [hpc] at h2
          omega
        · rw [Function.update_noteq hww]
          exact h2
      · dsimp only
        intro w2 h
        by_cases hww : w2 = w
        · subst hww
          rw [Function.update_same] at h
          omega
        · rw [Function.update_noteq hww] at h
          exact pc_table w2 h
      · dsimp only
        intro w2 h
        by_cases hww : w2 = w
        · subst hww
          exact held_reg w2 (by omega)
        · rw [Function.update_noteq hww] at h
          exact held_reg w2 h
      · dsimp only [inCrit]
        intro w2 l2 hcrit hh2
        obtain ⟨h3, h8⟩ := hcrit
        by_cases hww : w2 = w
        · subst hww
          rw [Function.update_same] at h8
          omega
        · rw [Function.update_noteq hww] at h3 h8
          have hold := crit_holder w2 l2 ⟨h3, h8⟩ hh2
          by_cases hll : l2 = l
          · subst hll
            exfalso
            have hw := crit_holder w l2 ⟨by omega, by omega⟩ hh
            rw [hold] at hw
            exact hww (Option.some.inj hw)
          · rw [Function.update_noteq hll]
            exact hold
      · dsimp only [inCrit]
        intro l2 w2 h
        by_cases hll : l2 = l
        · subst hll
          rw [Function.update_same] at h
          exact Option.noConfusion h
        · rw [Function.update_noteq hll] at h
          obtain ⟨⟨h3, h8⟩, hh2⟩ := holder_crit l2 w2 h
          have hww : w2 ≠ w := by
            intro hww
            subst hww
            rw [hh] at hh2
            exact hll (Option.some.inj hh2).symm
          rw [Function.update_noteq hww]
          exact ⟨⟨h3, h8⟩, hh2⟩

theorem reachable_inv {n : Nat} (ks : Fin n → String) (c : Conf n)
    (h : Reachable ks c) : ConfInv ks c := by
  induction h with
  | refl => exact init_inv ks
  | tail _ hstep ih => exact step_inv ks _ _ ih hstep

/-! ## Claim theorems: concurrency (C1, C8) -/

/-- Two workers driving jobs for two distinct repo urls. -/
def twoKeys : Fin 2 → String := fun w => if w = 0 then "repo1" else "repo2"

theorem overlap_reachable :
    ∃ c : Conf 2, Reachable twoKeys c ∧ inTask c 0 ∧ inTask c 1 ∧ twoKeys 0 ≠ twoKeys 1 := by
  have h0 : Reachable twoKeys (initConf 2) := Relation.ReflTransGen.refl
  have h1 := h0.tail (Step.acquireTableReg (initConf 2) 0 (by decide) (by decide))
  have h2 := h1.tail (Step.regCreate _ 0 (by decide) (by decide) (by decide))
  have h3 := h2.tail (Step.acquireRepo _ 0 0 (by decide) (by decide) (by decide))
  have h4 := h3.tail (Step.acquireTableRun _ 0 (by decide) (by decide))
  have h5 := h4.tail (Step.releaseTableRun _ 0 (by decide) (by decide))
  have h6 := h5.tail (Step.acquireTableReg _ 1 (by decide) (by decide))
  have h7 := h6.tail (Step.regCreate _ 1 (by decide) (by decide) (by decide))
  have h8 := h7.tail (Step.acquireRepo _ 1 1 (by decide) (by decide) (by decide))
  have h9 := h8.tail (Step.acquireTableRun _ 1 (by decide) (by decide))
  have h10 := h9.tail (Step.releaseTableRun _ 1 (by decide) (by decide))
  exact ⟨_, h10, rfl, rfl, by decide⟩

/-- C1: in every reachable interleaving of workers, two distinct workers
whose jobs carry the same resource key are never simultaneously inside
their execution intervals (repo lock acquired at line 112 through its
release); and with distinct keys two workers can be inside `task(job)` at
the same time — worker-pool capacity (the number of workers `n`) is the
only constraint. -/
theorem per_key_mutual_exclusion :
    (∀ (n : Nat) (ks : Fin n → String) (c : Conf n), Reachable ks c →
      ∀ w1 w2 : Fin n, w1 ≠ w2 → ks w1 = ks w2 → ¬(inCrit c w1 ∧ inCrit c w2))
    ∧ (∃ c : Conf 2, Reachable twoKeys c ∧ inTask c 0 ∧ inTask c 1 ∧
        twoKeys 0 ≠ twoKeys 1) := by
  constructor
  · intro n ks c hreach w1 w2 hne hkey hboth
    obtain ⟨hc1, hc2⟩ := hboth
    have inv := reachable_inv ks c hreach
    obtain ⟨l1, hh1, hlook1⟩ := inv.held_reg w1 (le_trans (by omega) hc1.1)
    obtain ⟨l2, hh2, hlook2⟩ := inv.held_reg w2 (le_trans (by omega) hc2.1)
    have hll : l1 = l2 := by
      rw [hkey] at hlook1
      rw [hlook1] at hlook2
      exact Option.some.inj hlook2
    subst hll
    have e1 := inv.crit_holder w1 l1 hc1 hh1
    have e2 := inv.crit_holder w2 l1 hc2 hh2
    rw [e1] at e2
    exact hne (Option.some.inj e2)
  · exact overlap_reachable

theorem per_key_mutual_exclusion_witness :
    ¬(inCrit (initConf 2) 0 ∧ inCrit (initConf 2) 1) :=
  per_key_mutual_exclusion.1 2 (fun _ => "repo1") (initConf 2)
    Relation.ReflTransGen.refl 0 1 (by decide) rfl

/-- C8 counterexample: the claim says the repo-lock registry map is
protected by "its own mutex, distinct from the job-table mutex"; in the
source `_get_repo_lock` guards its lookup/creation with `with self.lock:`
(line 99), the very mutex that guards the job table — the two are the same
object, not distinct. -/
theorem registry_guard_is_table_guard : registryGuard = tableGuard := rfl

/-- The configuration after the single step in which worker 0 has entered
the registry lookup of `_get_repo_lock` and holds `self.lock`. -/
def regLookupConf : Conf 1 :=
  { initConf 1 with pc := Function.update (initConf 1).pc 0 1, tableHolder := some 0 }

/-- C8 (amended): the registry map is protected by `self.lock` — the same
mutex that guards the job table, not a distinct one — and a worker holds
that mutex only inside the registry lookup/creation body (pc 1) or inside
the body of one of the two `_update` calls (pc 4, 7): never after
`_get_repo_lock` has returned the lock handle (pc 2), never while blocking
on the repo lock (pc 2-3), and never during task execution (pc 5). -/
theorem registry_guard_shared_and_scoped :
    registryGuard = tableGuard
    ∧ ∀ (n : Nat) (ks : Fin n → String) (c : Conf n), Reachable ks c →
        ∀ w : Fin n, c.tableHolder = some w →
          (c.pc w = 1 ∨ c.pc w = 4 ∨ c.pc w = 7)
          ∧ ¬inTask c w ∧ c.pc w ≠ 2 ∧ c.pc w ≠ 3 := by
  refine ⟨rfl, ?_⟩
  intro n ks c hreach w hold
  have inv := reachable_inv ks c hreach
  have htriple := inv.table_pc w hold
  refine ⟨htriple, ?_, ?_, ?_⟩
  · intro htask
    rw [inTask] at htask
    omega
  · omega
  · omega

theorem registry_guard_shared_and_scoped_witness :
    registryGuard = tableGuard
    ∧ ((regLookupConf.pc 0 = 1 ∨ regLookupConf.pc 0 = 4 ∨ regLookupConf.pc 0 = 7)
        ∧ ¬inTask regLookupConf 0 ∧ regLookupConf.pc 0 ≠ 2 ∧ regLookupConf.pc 0 ≠ 3) :=
  ⟨registry_guard_shared_and_scoped.1,
    registry_guard_shared_and_scoped.2 1 (fun _ => "repo1") regLookupConf
      (Relation.ReflTransGen.refl.tail
        (Step.acquireTableReg (initConf 1) 0 (by decide) (by decide)))
      0 rfl⟩

/-! ## Claim theorems: manager operations -/

/-- C10: `create_job` returns a record already registered: the job is
constructed in `queued` state with the provided fresh id, inserted into the
table and persisted (the new snapshot heads the persistence log and
contains the job) before the `_run` unit is handed to the pool and before
`create_job` returns — in this model every table access is one atomic
`MOp`, mirroring that insert and persist happen under `self.lock`; any
sequence of later manager operations (including the job's own worker)
leaves the job present, so a `get_job` issued after `create_job` returns
never yields not-found. -/
theorem create_job_registers_before_return (s : JobManager) (ru rt : String)
    (md : Metadata) (fid : String) (now : ℚ) :
    (s.create_job ru rt md fid now).2.status = JobStatus.QUEUED
    ∧ (s.create_job ru rt md fid now).2.id = fid
    ∧ lookupD (s.create_job ru rt md fid now).1.jobs fid
        = some (s.create_job ru rt md fid now).2
    ∧ (s.create_job ru rt md fid now).1.persistLog =
        ((s.create_job ru rt md fid now).1.jobs.map fun p => p.2.to_dict) :: s.persistLog
    ∧ (s.create_job ru rt md fid now).2.to_dict
        ∈ ((s.create_job ru rt md fid now).1.jobs.map fun p => p.2.to_dict)
    ∧ (∀ tr : List MOp,
        (applyOps (s.create_job ru rt md fid now).1 tr).get_job fid ≠ none) := by
  have hlook : lookupD (s.create_job ru rt md fid now).1.jobs fid
      = some (s.create_job ru rt md fid now).2 :=
    lookupD_insertD_self s.jobs fid (Job.init ru rt md fid now)
  refine ⟨rfl, rfl, hlook, rfl, ?_, ?_⟩
  · exact List.mem_map_of_mem (fun p => p.2.to_dict) (lookupD_mem _ _ _ hlook)
  · intro tr
    have hsome : (lookupD (applyOps (s.create_job ru rt md fid now).1 tr).jobs fid).isSome :=
      lookupD_applyOps_isSome _ tr fid (by rw [hlook]; rfl)
    obtain ⟨x, hx⟩ := Option.isSome_iff_exists.mp hsome
    rw [JobManager.get_job, hx]
    simp

/-- C7: `update_job` (`_update`) on a job id absent from the table returns
before touching anything: the whole manager state — table and persistence
log alike — is unchanged, and no persistence write happens (the `return`
at line 127 precedes the `self._persist()` call). -/
theorem update_unknown_id_noop (s : JobManager) (j : String)
    (kw : List FieldUpdate) (now : ℚ) (h : lookupD s.jobs j = none) :
    s.update_job j kw now = s ∧ (s.update_job j kw now).persistLog = s.persistLog := by
  have heq : s.update_job j kw now = s := update_of_lookup_none s j kw now h
  exact ⟨heq, by rw [heq]⟩

theorem update_unknown_id_noop_witness :
    JobManager.fresh.update_job "missing" [FieldUpdate.progress (some "x")] 1
      = JobManager.fresh
    ∧ (JobManager.fresh.update_job "missing" [FieldUpdate.progress (some "x")] 1).persistLog
      = JobManager.fresh.persistLog :=
  update_unknown_id_noop JobManager.fresh "missing"
    [FieldUpdate.progress (some "x")] 1 rfl

/-- C5: when the remote backend fails at startup — either `RedisStore(url)`
raises (caught at lines 60-63) or a constructed store cannot be read
(`RedisStore.load` coerces any failure to `[]`) — `JobManager` construction
still completes (the embedding of `__init__` is a total function: every
failure path of the source is caught): with a failed constructor the
manager has no redis store and loads exactly what a redis-less manager
would load from the local file; with a failed load it starts with an empty
table; in both cases a subsequent `create_job` registers its queued job
normally. -/
theorem construction_degrades_gracefully (u : String)
    (redisRaw : Except Unit (Option (List JobDict)))
    (localFile : Option (Except Unit (List JobDict))) :
    ((JobManager.init (some u) false redisRaw localFile).redis_store = none
      ∧ (JobManager.init (some u) false redisRaw localFile).jobs =
          (JobManager.init none true (Except.ok none) localFile).jobs)
    ∧ ((JobManager.init (some u) true (Except.error ()) localFile).jobs = []
        ∧ (JobManager.init (some u) true (Except.error ()) localFile).redis_store = some u)
    ∧ (∀ (ru rt : String) (md : Metadata) (fid : String) (now : ℚ),
        lookupD ((JobManager.init (some u) false redisRaw localFile).create_job
            ru rt md fid now).1.jobs fid = some (Job.init ru rt md fid now)
        ∧ (Job.init ru rt md fid now).status = JobStatus.QUEUED) := by
  refine ⟨⟨rfl, rfl⟩, ⟨rfl, rfl⟩, ?_⟩
  intro ru rt md fid now
  exact ⟨lookupD_insertD_self _ fid (Job.init ru rt md fid now), rfl⟩

/-- A manager holding one queued job, as left by submitting the spec's
scenario job `C` for `repo2`. -/
def demoManager : JobManager :=
  (JobManager.fresh.create_job "repo2" "github" [] "job-C" 0).1

/-- C3: a worker whose task raises an exception with message `m` catches it
at the `except Exception` boundary of `_run` (line 117) — `runWorker` is a
total function, so nothing propagates — and records exactly
`status="failed"`, `error=m`, `progress="error"` on the job; afterwards an
unrelated submission still registers its job in `queued` state normally. -/
theorem task_failure_recorded (s : JobManager) (j : String) (jb : Job)
    (m : String) (t1 t2 : ℚ) (h : lookupD s.jobs j = some jb) :
    (∃ r, lookupD (s.runWorker j (Except.error m) t1 t2).jobs j = some r
      ∧ r.status = JobStatus.FAILED ∧ r.error = some m ∧ r.progress = some "error")
    ∧ (∀ (ru rt : String) (md : Metadata) (fid : String) (now : ℚ),
        lookupD ((s.runWorker j (Except.error m) t1 t2).create_job
            ru rt md fid now).1.jobs fid = some (Job.init ru rt md fid now)
        ∧ (Job.init ru rt md fid now).status = JobStatus.QUEUED) := by
  have h1 := lookupD_update_self s j jb startUpdates t1 h
  have h2 := lookupD_update_self (s.update j startUpdates t1) j
    { applyUpdates jb startUpdates with updated_at := t1 }
    (finishUpdates (Except.error m)) t2 h1
  constructor
  · exact ⟨_, h2, rfl, rfl, rfl⟩
  · intro ru rt md fid now
    exact ⟨lookupD_insertD_self _ fid (Job.init ru rt md fid now), rfl⟩

theorem task_failure_recorded_witness :
    (∃ r, lookupD (demoManager.runWorker "job-C" (Except.error "boom") 1 2).jobs "job-C"
        = some r
      ∧ r.status = JobStatus.FAILED ∧ r.error = some "boom"
      ∧ r.progress = some "error")
    ∧ (∀ (ru rt : String) (md : Metadata) (fid : String) (now : ℚ),
        lookupD ((demoManager.runWorker "job-C" (Except.error "boom") 1 2).create_job
            ru rt md fid now).1.jobs fid = some (Job.init ru rt md fid now)
        ∧ (Job.init ru rt md fid now).status = JobStatus.QUEUED) :=
  task_failure_recorded demoManager "job-C" (Job.init "repo2" "github" [] "job-C" 0)
    "boom" 1 2 rfl

/-! ## Claim theorems: persistence round trip (C4) -/

theorem jobOfItem_to_dict (j : Job) : jobOfItem (Job.to_dict j) = j := rfl

theorem loadFromData_go (l : List Job) : ∀ acc : List (String × Job),
    (l.map Job.id).Nodup → (∀ jb ∈ l, lookupD acc jb.id = none) →
    List.foldl (fun acc item => insertD acc (jobOfItem item).id (jobOfItem item))
        acc (l.map Job.to_dict)
      = acc ++ l.map (fun jb => (jb.id, jb)) := by
  induction l with
  | nil =>
      intro acc _ _
      simp
  | cons jb l ih =>
      intro acc hnodup hfresh
      have hstep : insertD acc (jobOfItem jb.to_dict).id (jobOfItem jb.to_dict)
          = acc ++ [(jb.id, jb)] := by
        rw [jobOfItem_to_dict]
        exact insertD_eq_append acc jb.id jb (hfresh jb (List.mem_cons_self _ _))
      have hnodup2 : (l.map Job.id).Nodup := (List.nodup_cons.mp (by simpa using hnodup)).2
      have hhead : jb.id ∉ l.map Job.id := (List.nodup_cons.mp (by simpa using hnodup)).1
      have hfresh2 : ∀ jb2 ∈ l, lookupD (acc ++ [(jb.id, jb)]) jb2.id = none := by
        intro jb2 hm
        rw [lookupD_append]
        rw [hfresh jb2 (List.mem_cons_of_mem _ hm)]
        have hne : jb.id ≠ jb2.id := by
          intro heq
          exact hhead (heq ▸ List.mem_map_of_mem Job.id hm)
        simp [lookupD, hne]
      calc List.foldl (fun acc item => insertD acc (jobOfItem item).id (jobOfItem item))
              acc ((jb :: l).map Job.to_dict)
          = List.foldl (fun acc item => insertD acc (jobOfItem item).id (jobOfItem item))
              (acc ++ [(jb.id, jb)]) (l.map Job.to_dict) := by
            rw [List.map_cons, List.foldl_cons, hstep]
        _ = (acc ++ [(jb.id, jb)]) ++ l.map (fun jb2 => (jb2.id, jb2)) :=
            ih (acc ++ [(jb.id, jb)]) hnodup2 hfresh2
        _ = acc ++ (jb :: l).map (fun jb2 => (jb2.id, jb2)) := by
            rw [List.map_cons, List.append_assoc]
            rfl

theorem loadFromData_round (l : List Job) (h : (l.map Job.id).Nodup) :
    loadFromData (l.map Job.to_dict) = l.map (fun jb => (jb.id, jb)) := by
  have := loadFromData_go l [] h (by intro jb _; rfl)
  simpa [loadFromData] using this

/-- C4: persisting a table whose records carry pairwise distinct ids
(`_persist` writes exactly the per-record `to_dict` dumps, most recent
snapshot first) and loading that snapshot into a fresh manager —
local-file backend or redis backend alike — reconstructs a table with the
same number of records, carrying the records themselves field for field:
id, status, error, progress and metadata are identical, and `created_at`
and `updated_at` are exactly the originals (hence non-decreasing with
respect to them). -/
theorem persist_load_round_trip (s : JobManager)
    (h : (s.jobs.map fun p => p.2.id).Nodup) :
    s.persist.persistLog.head? = some (s.jobs.map fun p => p.2.to_dict)
    ∧ (JobManager.init none true (Except.ok none)
        (some (Except.ok (s.jobs.map fun p => p.2.to_dict)))).jobs
        = (s.jobs.map fun p => p.2).map (fun jb => (jb.id, jb))
    ∧ ((JobManager.init none true (Except.ok none)
        (some (Except.ok (s.jobs.map fun p => p.2.to_dict)))).jobs.map fun p => p.2)
        = (s.jobs.map fun p => p.2)
    ∧ (JobManager.init none true (Except.ok none)
        (some (Except.ok (s.jobs.map fun p => p.2.to_dict)))).jobs.length
        = s.jobs.length
    ∧ (JobManager.init (some "redis-url") true
        (Except.ok (some (s.jobs.map fun p => p.2.to_dict))) none).jobs
        = (s.jobs.map fun p => p.2).map (fun jb => (jb.id, jb)) := by
  have hvals : ((s.jobs.map fun p => p.2).map Job.id).Nodup := by
    rw [List.map_map]
    exact h
  have hpayload : (s.jobs.map fun p => p.2.to_dict)
      = ((s.jobs.map fun p => p.2).map Job.to_dict) := by
    rw [List.map_map]
    rfl
  have hload : loadFromData (s.jobs.map fun p => p.2.to_dict)
      = (s.jobs.map fun p => p.2).map (fun jb => (jb.id, jb)) := by
    rw [hpayload]
    exact loadFromData_round _ hvals
  refine ⟨rfl, ?_, ?_, ?_, ?_⟩
  · exact hload
  · show (loadFromData (s.jobs.map fun p => p.2.to_dict)).map (fun p => p.2)
        = (s.jobs.map fun p => p.2)
    rw [hload, List.map_map]
    simp
  · show (loadFromData (s.jobs.map fun p => p.2.to_dict)).length = s.jobs.length
    rw [hload]
    simp
  · exact hload

/-- A two-record table with distinct ids. -/
def rtManager : JobManager :=
  { jobs := [("a", Job.init "r1" "github" [] "a" 0),
             ("b", Job.init "r2" "local" [("k", "v")] "b" 1)]
    repo_locks := []
    next_lock := 0
    redis_store := none
    persistLog := [] }

theorem persist_load_round_trip_witness :
    rtManager.persist.persistLog.head? = some (rtManager.jobs.map fun p => p.2.to_dict)
    ∧ (JobManager.init none true (Except.ok none)
        (some (Except.ok (rtManager.jobs.map fun p => p.2.to_dict)))).jobs
        = (rtManager.jobs.map fun p => p.2).map (fun jb => (jb.id, jb))
    ∧ ((JobManager.init none true (Except.ok none)
        (some (Except.ok (rtManager.jobs.map fun p => p.2.to_dict)))).jobs.map fun p => p.2)
        = (rtManager.jobs.map fun p => p.2)
    ∧ (JobManager.init none true (Except.ok none)
        (some (Except.ok (rtManager.jobs.map fun p => p.2.to_dict)))).jobs.length
        = rtManager.jobs.length
    ∧ (JobManager.init (some "redis-url") true
        (Except.ok (some (rtManager.jobs.map fun p => p.2.to_dict))) none).jobs
        = (rtManager.jobs.map fun p => p.2).map (fun jb => (jb.id, jb)) :=
  persist_load_round_trip rtManager (by decide)

/-! ## Claim theorems: status lifecycle (C2), creation-time fields (C6) -/

/-- A manager holding one freshly created queued job. -/
def cexManager0 : JobManager :=
  (JobManager.fresh.create_job "repo1" "github" [] "job-1" 0).1

/-- C2 counterexample: the claim quantifies over every sequence of manager
operations, but the public `update_job` forwards arbitrary keywords to the
`setattr` loop of `_update`, so a manager-operation sequence can drive a
record's status from `queued` to `success` and back to `queued` — the
status sequence is then not a subsequence of queued → running → terminal,
a terminal state is left again, and the status regresses. -/
theorem status_can_regress :
    statusAt cexManager0 "job-1" = some JobStatus.QUEUED
    ∧ statusAt
        (cexManager0.update_job "job-1" [FieldUpdate.status JobStatus.SUCCESS] 1)
        "job-1" = some JobStatus.SUCCESS
    ∧ statusAt
        ((cexManager0.update_job "job-1" [FieldUpdate.status JobStatus.SUCCESS] 1).update_job
          "job-1" [FieldUpdate.status JobStatus.QUEUED] 2)
        "job-1" = some JobStatus.QUEUED :=
  ⟨rfl, rfl, rfl⟩

/-- C2 (amended): restricted to traces that follow the execution protocol —
per job id the creation/worker operations occur in create, worker-start,
worker-end order (as `create_job`/`_run` issue them), and `update_job`
calls for the job never pass a `status` keyword (the spec's
`UpdateProgress` passes only `progress`) — the status rank (queued 0,
running 1, success/failed 2) never decreases across any operation of the
trace, and once the rank is terminal the status never changes again; so
the status sequence is a subsequence of queued → running → exactly one
terminal state. -/
theorem job_status_monotone (ops : List MOp) (j : String)
    (hwf : ∃ k, lifeTags j ops = lifePattern.take k)
    (hsf : ∀ op ∈ ops, statusFreeFor j op) :
    ∀ p op rest, ops = p ++ op :: rest →
      rankAt (applyOps JobManager.fresh p) j ≤
        rankAt (applyOps JobManager.fresh (p ++ [op])) j
      ∧ (rankAt (applyOps JobManager.fresh p) j = 2 →
          statusAt (applyOps JobManager.fresh (p ++ [op])) j
            = statusAt (applyOps JobManager.fresh p) j) :=
  status_step_facts ops j hwf hsf

theorem job_status_monotone_witness :
    rankAt (applyOps JobManager.fresh [MOp.create "r" "t" [] "j" 0]) "j" ≤
      rankAt (applyOps JobManager.fresh
        ([MOp.create "r" "t" [] "j" 0] ++ [MOp.wStart "j" 1])) "j"
    ∧ (rankAt (applyOps JobManager.fresh [MOp.create "r" "t" [] "j" 0]) "j" = 2 →
        statusAt (applyOps JobManager.fresh
          ([MOp.create "r" "t" [] "j" 0] ++ [MOp.wStart "j" 1])) "j"
          = statusAt (applyOps JobManager.fresh [MOp.create "r" "t" [] "j" 0]) "j") :=
  job_status_monotone
    [MOp.create "r" "t" [] "j" 0, MOp.wStart "j" 1, MOp.wEnd "j" (Except.ok ()) 2]
    "j" ⟨3, by decide⟩
    (by intro op hop; fin_cases hop <;> trivial)
    [MOp.create "r" "t" [] "j" 0] (MOp.wStart "j" 1) [MOp.wEnd "j" (Except.ok ()) 2] rfl

/-- C6 counterexample: `update_job` forwards any keyword whose name is a
`Job` attribute to `setattr`, so a manager operation can overwrite
`repo_url` and `metadata` (and likewise `id`, `repo_type`, `created_at`)
of an existing record, contradicting their claimed immutability. -/
theorem creation_fields_can_change :
    (lookupD cexManager0.jobs "job-1").map Job.repo_url = some "repo1"
    ∧ (lookupD (cexManager0.update_job "job-1"
        [FieldUpdate.repo_url "evil", FieldUpdate.metadata [("x", "y")]] 1).jobs
        "job-1").map Job.repo_url = some "evil"
    ∧ (lookupD (cexManager0.update_job "job-1"
        [FieldUpdate.repo_url "evil", FieldUpdate.metadata [("x", "y")]] 1).jobs
        "job-1").map Job.metadata = some [("x", "y")] :=
  ⟨rfl, rfl, rfl⟩

/-- C6 (amended): creation stores `id`, `repo_url` (resourceKey),
`repo_type` (kind) and `metadata` verbatim from the caller; and along any
operation trace in which fresh uuids never collide with the job's id and
`update_job` calls addressed to it pass only lifecycle keywords (`status`,
`error`, `progress`, `updated_at` or skipped names), the record keeps its
`id`, `repo_url`, `repo_type`, `created_at` and `metadata` unchanged —
only status, error, progress and updated_at can differ — and `get_job`
exposes exactly the record's stored fields, its metadata verbatim. -/
theorem creation_fields_immutable_of_protocol (p q : List MOp) (j : String) (r : Job)
    (hp : lookupD (applyOps JobManager.fresh p).jobs j = some r)
    (hq : ∀ op ∈ q, frameSafeFor j op) :
    (∀ (s : JobManager) (ru rt : String) (md : Metadata) (fid : String) (now : ℚ),
      (s.create_job ru rt md fid now).2.id = fid
      ∧ (s.create_job ru rt md fid now).2.repo_url = ru
      ∧ (s.create_job ru rt md fid now).2.repo_type = rt
      ∧ (s.create_job ru rt md fid now).2.metadata = md)
    ∧ ∃ r2, lookupD (applyOps JobManager.fresh (p ++ q)).jobs j = some r2
        ∧ r2.id = r.id ∧ r2.repo_url = r.repo_url ∧ r2.repo_type = r.repo_type
        ∧ r2.created_at = r.created_at ∧ r2.metadata = r.metadata
        ∧ (applyOps JobManager.fresh (p ++ q)).get_job j = some r2.to_dict := by
  refine ⟨fun s ru rt md fid now => ⟨rfl, rfl, rfl, rfl⟩, ?_⟩
  rw [applyOps_append]
  obtain ⟨r2, hl2, a, b, c, d, e⟩ :=
    frame_applyOps q j (applyOps JobManager.fresh p) r hp hq
  refine ⟨r2, hl2, a, b, c, d, e, ?_⟩
  show (lookupD (applyOps (applyOps JobManager.fresh p) q).jobs j).map Job.to_dict
      = some r2.to_dict
  rw [hl2]
  rfl

theorem creation_fields_immutable_witness :
    ((JobManager.fresh.create_job "r" "t" [("m", "n")] "jw6" 0).2.id = "jw6"
      ∧ (JobManager.fresh.create_job "r" "t" [("m", "n")] "jw6" 0).2.repo_url = "r"
      ∧ (JobManager.fresh.create_job "r" "t" [("m", "n")] "jw6" 0).2.repo_type = "t"
      ∧ (JobManager.fresh.create_job "r" "t" [("m", "n")] "jw6" 0).2.metadata = [("m", "n")])
    ∧ ∃ r2, lookupD (applyOps JobManager.fresh
          ([MOp.create "repo1" "github" [("k", "v")] "jw" 0]
            ++ [MOp.updJob "jw" [FieldUpdate.progress (some "p")] 1])).jobs "jw" = some r2
        ∧ r2.id = (Job.init "repo1" "github" [("k", "v")] "jw" 0).id
        ∧ r2.repo_url = (Job.init "repo1" "github" [("k", "v")] "jw" 0).repo_url
        ∧ r2.repo_type = (Job.init "repo1" "github" [("k", "v")] "jw" 0).repo_type
        ∧ r2.created_at = (Job.init "repo1" "github" [("k", "v")] "jw" 0).created_at
        ∧ r2.metadata = (Job.init "repo1" "github" [("k", "v")] "jw" 0).metadata
        ∧ (applyOps JobManager.fresh
            ([MOp.create "repo1" "github" [("k", "v")] "jw" 0]
              ++ [MOp.updJob "jw" [FieldUpdate.progress (some "p")] 1])).get_job "jw"
            = some r2.to_dict := by
  have h := creation_fields_immutable_of_protocol
    [MOp.create "repo1" "github" [("k", "v")] "jw" 0]
    [MOp.updJob "jw" [FieldUpdate.progress (some "p")] 1]
    "jw" (Job.init "repo1" "github" [("k", "v")] "jw" 0) rfl
    (by
      intro op hop
      fin_cases hop
      intro _ u hu
      fin_cases hu
      rfl)
  exact ⟨h.1 JobManager.fresh "r" "t" [("m", "n")] "jw6" 0, h.2⟩

/-! ## Claim theorems: updated_at (C9) -/

/-- C9: `Job.__init__` starts `updated_at` equal to `created_at` (both the
creation-time clock reading); every `_update` that finds its job sets
`updated_at` to the clock reading of that mutation (line 131, uncondition-
ally, after the keyword loop); and along any operation trace whose clock
readings are non-decreasing — `time.time()` readings of a well-behaved
wall clock — the `updated_at` of a record never decreases from one
operation to the next. -/
theorem updated_at_refresh_monotone (ops : List MOp) (j : String)
    (hsort : List.Pairwise (· ≤ ·) (ops.map MOp.nowOf)) :
    (∀ (s : JobManager) (ru rt : String) (md : Metadata) (fid : String) (now : ℚ),
        (s.create_job ru rt md fid now).2.created_at = now
        ∧ (s.create_job ru rt md fid now).2.updated_at = now)
    ∧ (∀ (s : JobManager) (kw : List FieldUpdate) (now : ℚ) (r : Job),
        lookupD s.jobs j = some r → updAt (s.update_job j kw now) j = some now)
    ∧ (∀ p op rest u, ops = p ++ op :: rest →
        updAt (applyOps JobManager.fresh p) j = some u →
        ∃ v, updAt (applyOps JobManager.fresh (p ++ [op])) j = some v ∧ u ≤ v) := by
  refine ⟨fun s ru rt md fid now => ⟨rfl, rfl⟩, ?_, ?_⟩
  · intro s kw now r hr
    unfold updAt
    rw [show s.update_job j kw now = s.update j kw now from rfl,
      lookupD_update_self s j r kw now hr]
    rfl
  · intro p op rest u heq hu
    subst heq
    have hconv : applyOps JobManager.fresh (p ++ [op])
        = applyOp (applyOps JobManager.fresh p) op := by
      rw [applyOps_append]
      rfl
    have hle : u ≤ op.nowOf := by
      have hmem := updAt_mem j p u hu
      rw [List.map_append, List.map_cons] at hsort
      exact (List.pairwise_append.mp hsort).2.2 u hmem op.nowOf
        (List.mem_cons_self _ _)
    rcases updAt_applyOp (applyOps JobManager.fresh p) op j with hcase | hcase
    · refine ⟨u, ?_, le_refl u⟩
      rw [hconv, hcase]
      exact hu
    · exact ⟨op.nowOf, by rw [hconv, hcase], hle⟩

theorem updated_at_refresh_monotone_witness :
    ((JobManager.fresh.create_job "r" "t" [] "jw9" 0).2.created_at = 0
      ∧ (JobManager.fresh.create_job "r" "t" [] "jw9" 0).2.updated_at = 0)
    ∧ ∃ v, updAt (applyOps JobManager.fresh
        ([MOp.create "r" "t" [] "jw9" 0] ++ [MOp.updJob "jw9" [] 1])) "jw9" = some v
        ∧ (0 : ℚ) ≤ v := by
  have h := updated_at_refresh_monotone
    [MOp.create "r" "t" [] "jw9" 0, MOp.updJob "jw9" [] 1] "jw9"
    (by
      simp only [List.map_cons, List.map_nil, List.pairwise_cons, List.mem_cons,
        List.mem_singleton, List.Pairwise.nil, MOp.nowOf]
      constructor
      · intro b hb
        rcases hb with rfl | hb
        · norm_num
        · simp at hb
      · simp)
  exact ⟨h.1 JobManager.fresh "r" "t" [] "jw9" 0,
    h.2.2 [MOp.create "r" "t" [] "jw9" 0] (MOp.updJob "jw9" [] 1) [] 0 rfl rfl⟩
